import Mathlib

/-! HESS_HP validator: `hc_validate`, `read_graph` and `read_tour`
(src/validator/hclib.c)

A shallow embedding of the Hamiltonian-cycle validator.

* A C `int` is an `Int`.  Every counter of `hc_validate` and of the edge loop
  is bounded by the size of its input, and `atoi` yields the value of the
  numeral it reads: runs in which a value leaves the range of `int` (undefined
  behaviour in C) are outside the embedding.  Where the result of `read_graph`
  is compared with the integers written in the text, the integers are taken
  within the range of `int` (`int_range`, `dimension_ok`).
* An `int*` is a `List Int`, an `int**` a `List (List Int)`; an access outside
  the allocated block is undefined behaviour in C and the fault
  `Fault.outOfBounds` here.  `malloc` is taken to succeed.
* A file is the list of its characters; `fgets` cuts it into lines of at most
  `LINESIZE - 1` characters.
* The block of `read_tour` is `malloc(node_count * sizeof(int*))`: it has
  `ptr_ints * node_count` slots of an `int`, with `ptr_ints` the number of
  `int`s in a pointer (2 on a 64-bit platform, 1 on a 32-bit one).  The slots
  the C code leaves uninitialised hold 0 here; `hc_validate` does not read them.
* `printf` under `verbose` appends a `Msg` to the output of the outcome.
* Every read of the caller's memory (`tour[..]`, `graph[..][..]`) is appended
  to the `reads` log of the outcome, so that "reads nothing" can be stated.
-/

namespace HC

/-! ## Memory model -/

/-- What goes wrong where the C code has undefined behaviour. -/
inductive Fault where
  /-- An index outside the allocated block. -/
  | outOfBounds
  /-- The argument of `atoi` is the null pointer. -/
  | nullPointer
  deriving DecidableEq, Repr

/-- The element `xs[i]` of a C array, `none` outside the block. -/
def readAt {α : Type} (xs : List α) (i : Int) : Option α :=
  if 0 ≤ i then xs.get? i.toNat else none

/-- The entry `graph[u][v]` of an `int**`, `none` outside either block. -/
def readGraph (graph : List (List Int)) (u v : Int) : Option Int :=
  match readAt graph u with
  | none => none
  | some row => readAt row v

/-- The store `xs[i] = x` into a C array, `none` outside the block. -/
def writeAt {α : Type} (xs : List α) (i : Int) (x : α) : Option (List α) :=
  if 0 ≤ i ∧ i.toNat < xs.length then some (xs.set i.toNat x) else none

/-- The store `graph[u][v] = x` into an `int**`, `none` outside either block. -/
def writeGraph (graph : List (List Int)) (u v x : Int) : Option (List (List Int)) :=
  match readAt graph u with
  | none => none
  | some row =>
    match writeAt row v x with
    | none => none
    | some row1 => writeAt graph u row1

/-! ## hc_validate -/

/-- The lines `hc_validate` prints when `verbose` is set. -/
inductive Msg where
  /-- "Tour and graph do not contain same number of nodes" -/
  | sizeMismatch
  /-- "graph has no nodes" -/
  | emptyGraph
  /-- "No edge between %d and %d" of `previous_node`, `current_node` -/
  | noEdge (previous_node current_node : Int)
  /-- "Not all nodes visited (visited %i, expected %i)" -/
  | notAllVisited (visited expected : Int)
  /-- "Valid Hamiltoninan Path" -/
  | validPath
  /-- "First node does not connect with last node of tour" -/
  | firstNotLast
  /-- "Valid Hamiltoninan Cycle" -/
  | validCycle
  deriving DecidableEq, Repr

/-- A read of the memory the caller passed to `hc_validate`. -/
inductive Access where
  /-- The read `tour[pos]`. -/
  | tour (pos : Int)
  /-- The read `graph[row][col]`. -/
  | graph (row col : Int)
  deriving DecidableEq, Repr

/-- The statement `if (verbose) printf(...)`. -/
def say (verbose : Bool) (m : Msg) : List Msg :=
  if verbose then [m] else []

/-- The local variables of `hc_validate` during the walk, with the output
printed and the reads made so far. -/
structure WalkState where
  visited_nodes : List Int
  previous_node : Int
  visited_node_count : Int
  valid : Bool
  out : List Msg
  reads : List Access
  deriving DecidableEq, Repr

/-- What `hc_validate` returns and what it did on the way. -/
structure Outcome where
  valid : Bool
  out : List Msg
  reads : List Access
  deriving DecidableEq, Repr

/-- Lines 265-275 of hclib.c, the edge test of one iteration: when there is a
previous node, read `graph[previous_node][current_node]`; a zero entry prints
the missing edge and clears `valid`.  The boolean is `false` when the loop is
left by `break`. -/
def check_edge (graph : List (List Int)) (verbose : Bool) (current_node : Int)
    (s : WalkState) : Except Fault (Bool × WalkState) :=
  if s.previous_node ≠ -1 then
    match readGraph graph s.previous_node current_node with
    | none => .error .outOfBounds
    | some e =>
      let s1 : WalkState :=
        { s with reads := s.reads ++ [Access.graph s.previous_node current_node] }
      if e = 0 then
        .ok (false, { s1 with
          valid := false
          out := s1.out ++ say verbose (Msg.noEdge s1.previous_node current_node) })
      else .ok (true, s1)
  else .ok (true, s)

/-- Lines 280-286 of hclib.c: a node not seen before is marked and counted,
then `previous_node = current_node`. -/
def mark_visited (current_node : Int) (s : WalkState) : Except Fault WalkState :=
  match readAt s.visited_nodes current_node with
  | none => .error .outOfBounds
  | some seen =>
    if seen = 0 then
      match writeAt s.visited_nodes current_node 1 with
      | none => .error .outOfBounds
      | some vs => .ok { s with
          visited_nodes := vs
          visited_node_count := s.visited_node_count + 1
          previous_node := current_node }
    else .ok { s with previous_node := current_node }

/-- The loop `for (current_pos = 0; current_pos < node_count; current_pos++)`
of `hc_validate`, with `iters` iterations left and the next one at
`current_pos`.  The `break` on a missing edge returns at once. -/
def walk (tour : List Int) (graph : List (List Int)) (verbose : Bool) :
    Nat → Int → WalkState → Except Fault WalkState
  | 0, _, s => .ok s
  | iters + 1, current_pos, s =>
    match readAt tour current_pos with
    | none => .error .outOfBounds
    | some current_node =>
      match check_edge graph verbose current_node
          { s with reads := s.reads ++ [Access.tour current_pos] } with
      | .error f => .error f
      | .ok (false, s1) => .ok s1
      | .ok (true, s1) =>
        match mark_visited current_node s1 with
        | .error f => .error f
        | .ok s2 => walk tour graph verbose iters (current_pos + 1) s2

/-- The state before the first iteration: `visited_nodes` holds
`node_count + 1` zeros, `previous_node = -1`, `visited_node_count = 0`. -/
def walkInit (node_count : Int) : WalkState :=
  { visited_nodes := List.replicate (node_count + 1).toNat 0
    previous_node := -1
    visited_node_count := 0
    valid := true
    out := []
    reads := [] }

/-- The part of `hc_validate` after the loop: the coverage check, the
"Valid Hamiltoninan Path" line, the closing edge and the last line. -/
def finish (tour : List Int) (graph : List (List Int)) (node_count : Int)
    (verbose : Bool) (s : WalkState) : Except Fault Outcome :=
  let covered : Bool × List Msg :=
    if s.valid ∧ s.visited_node_count ≠ node_count then
      (false, s.out ++ say verbose (Msg.notAllVisited s.visited_node_count node_count))
    else (s.valid, s.out)
  let out1 : List Msg :=
    if covered.1 ∧ verbose then covered.2 ++ [Msg.validPath] else covered.2
  if covered.1 then
    match readAt tour 0 with
    | none => .error .outOfBounds
    | some firstNode =>
      match readAt tour (node_count - 1) with
      | none => .error .outOfBounds
      | some lastNode =>
        match readGraph graph firstNode lastNode with
        | none => .error .outOfBounds
        | some e =>
          let reads := s.reads ++
            [Access.tour 0, Access.tour (node_count - 1), Access.graph firstNode lastNode]
          if e = 0 then
            .ok { valid := false, out := out1 ++ say verbose Msg.firstNotLast, reads := reads }
          else
            .ok { valid := true
                  out := if verbose then out1 ++ [Msg.validCycle] else out1
                  reads := reads }
  else
    .ok { valid := false, out := out1, reads := s.reads }

/-- The function `hc_validate` of hclib.c. -/
def hc_validate (tour : List Int) (tour_node_count : Int) (graph : List (List Int))
    (node_count : Int) (verbose : Bool) : Except Fault Outcome :=
  if tour_node_count ≠ node_count then
    .ok { valid := false, out := say verbose Msg.sizeMismatch, reads := [] }
  else if node_count = 0 then
    .ok { valid := false, out := say verbose Msg.emptyGraph, reads := [] }
  else
    match walk tour graph verbose node_count.toNat 0 (walkInit node_count) with
    | .error f => .error f
    | .ok s => finish tour graph node_count verbose s

/-- The verdict of a run: the boolean `hc_validate` returns. -/
def verdict (r : Except Fault Outcome) : Option Bool :=
  match r with
  | .error _ => none
  | .ok o => some o.valid

/-- The 4-cycle with edges (1,2), (2,3), (3,4), (4,1). -/
def cycle4 : List (List Int) :=
  [[0, 0, 0, 0, 0],
   [0, 0, 1, 0, 1],
   [0, 1, 0, 1, 0],
   [0, 0, 1, 0, 1],
   [0, 1, 0, 1, 0]]

/-! ## The C library on text -/

/-- The macro `LINESIZE` of hclib.c. -/
def LINESIZE : Nat := 100000

/-- The lines that successive calls `fgets(line, size, fp)` return on a stream
until it is exhausted: a line ends after a newline, or when it holds
`size - 1` characters.  `cur` is the part of the current line already read,
last character first, and `room` the number of characters it still takes. -/
def fgets_lines (size : Nat) : List Char → List Char → Nat → List (List Char)
  | [], cur, _ => if cur = [] then [] else [cur.reverse]
  | c :: cs, cur, room =>
    if c = '\n' ∨ room ≤ 1 then (c :: cur).reverse :: fgets_lines size cs [] (size - 1)
    else fgets_lines size cs (c :: cur) (room - 1)

/-- The lines `fgets(line, LINESIZE, fp)` returns on a freshly opened file. -/
def stream_lines (text : List Char) : List (List Char) :=
  fgets_lines LINESIZE text [] (LINESIZE - 1)

/-- The C string a buffer holds: its characters before the first NUL. -/
def cstr (buf : List Char) : List Char :=
  buf.takeWhile (fun c => c ≠ Char.ofNat 0)

/-- One call of `strtok` on what is left of a string: `none` when only
delimiters are left, else the next token and what is left after the delimiter
that ends it. -/
def strtok (delim : List Char) (s : List Char) : Option (List Char × List Char) :=
  match s.dropWhile (fun c => delim.contains c) with
  | [] => none
  | c :: cs =>
    some ((c :: cs).takeWhile (fun c => !delim.contains c),
      ((c :: cs).dropWhile (fun c => !delim.contains c)).drop 1)

/-- The function `isspace` in the C locale. -/
def isspace (c : Char) : Bool :=
  c = ' ' || (9 ≤ c.toNat && c.toNat ≤ 13)

/-- The value of the leading decimal digits of a string, after `acc`. -/
def digits : List Char → Nat → Nat
  | [], acc => acc
  | c :: cs, acc =>
    if 48 ≤ c.toNat ∧ c.toNat ≤ 57 then digits cs (10 * acc + (c.toNat - 48)) else acc

/-- The function `atoi`: leading white space, an optional sign, decimal digits;
0 when there is no digit.  The result is the value of the numeral: a numeral
outside the range of `int` is undefined behaviour in C, and the statements
that compare `read_graph` with the integers written in a text take these
within `int_range`. -/
def atoi (s : List Char) : Int :=
  match s.dropWhile isspace with
  | '-' :: cs => -(digits cs 0 : Int)
  | '+' :: cs => (digits cs 0 : Int)
  | cs => (digits cs 0 : Int)

/-- The delimiters `header_delim` of the header lines: blank and colon. -/
def header_delim : List Char := " : ".toList
/-- The delimiter `edge_delim` of the edge lines: blank. -/
def edge_delim : List Char := " ".toList

/-! ## read_graph -/

/-- The header loop of `read_graph` (lines 36-53) and of `read_tour`, over the
lines `fgets` returns: it stops after the line that starts with `marker`, and a
first token `DIMENSION` sets `node_count` to `atoi` of the second token.  The
result is `node_count` and the lines left on the stream.  `atoi(NULL)`, when
the second token is missing, is the fault `nullPointer`. -/
def read_header (marker : List Char) :
    List (List Char) → Int → Except Fault (Int × List (List Char))
  | [], node_count => .ok (node_count, [])
  | line :: rest, node_count =>
    if marker.isPrefixOf (cstr line) then .ok (node_count, rest)
    else
      match strtok header_delim (cstr line) with
      | none => read_header marker rest node_count
      | some (token, more) =>
        if token = "DIMENSION".toList then
          match strtok header_delim more with
          | none => .error .nullPointer
          | some (value, _) => read_header marker rest (atoi value)
        else read_header marker rest node_count

/-- The marker that ends the header of a graph file. -/
def edge_marker : List Char := "EDGE_DATA_SECTION".toList

/-- Lines 59-68: `node_count + 1` rows of `node_count + 1` zeros (no row when
`node_count` is negative).  The C rows are allocated with `sizeof(int*)` bytes
per entry, more than the `node_count + 1` entries in use; an endpoint above
`node_count` faults all the same, the mirror store `graph[v][u]` leaving the
block of row pointers. -/
def alloc_graph (node_count : Int) : List (List Int) :=
  List.replicate (node_count + 1).toNat (List.replicate (node_count + 1).toNat 0)

/-- The first integer `u` of an edge line (lines 73-79): `atoi` of the first
token, 0 when there is none. -/
def edge_u (line : List Char) : Int :=
  match strtok edge_delim (cstr line) with
  | none => 0
  | some (token, _) => atoi token

/-- The second integer `v` of an edge line (lines 86-90): `atoi` of the second
token, 0 when there is none. -/
def edge_v (line : List Char) : Int :=
  match strtok edge_delim (cstr line) with
  | none => 0
  | some (_, more) =>
    match strtok edge_delim more with
    | none => 0
    | some (token, _) => atoi token

/-- The edge loop of `read_graph` (lines 71-100) over the lines left on the
stream: it stops at a line with `u = -1`; a line with `u > 0` and `v > 0`
stores 1 into `graph[u][v]` and `graph[v][u]` and increments `edge_count`. -/
def read_edges : List (List Char) → List (List Int) → Int →
    Except Fault (List (List Int) × Int)
  | [], graph, edge_count => .ok (graph, edge_count)
  | line :: rest, graph, edge_count =>
    if edge_u line = -1 then .ok (graph, edge_count)
    else if edge_u line > 0 ∧ edge_v line > 0 then
      match writeGraph graph (edge_u line) (edge_v line) 1 with
      | none => .error .outOfBounds
      | some g1 =>
        match writeGraph g1 (edge_v line) (edge_u line) 1 with
        | none => .error .outOfBounds
        | some g2 => read_edges rest g2 (edge_count + 1)
    else read_edges rest graph edge_count

/-- The lines the edge loop goes through before it breaks: those before the
first line on which the test `u == -1` (line 81) holds, `u` being what the
loop takes from the line. -/
def listed (lines : List (List Char)) : List (List Char) :=
  lines.takeWhile (fun l => edge_u l ≠ -1)

/-- The test `u > 0 && v > 0` (line 92) on what the loop takes from the line. -/
def records (l : List Char) : Bool :=
  decide (0 < edge_u l ∧ 0 < edge_v l)

/-- The two stores of lines 94-95 on a line that passes the test of line 92:
the loop sets the entries `[u][v]` and `[v][u]`. -/
def lists_edge (l : List Char) (u v : Int) : Prop :=
  0 < edge_u l ∧ 0 < edge_v l ∧ ((edge_u l = u ∧ edge_v l = v) ∨ (edge_u l = v ∧ edge_v l = u))

/-- What `read_graph` hands back: the matrix and the two counts. -/
structure ParsedGraph where
  graph : List (List Int)
  node_count : Int
  edge_count : Int
  deriving DecidableEq, Repr

/-- The function `read_graph` of hclib.c on the contents of the file, `none`
when `fopen` fails.  In that case the pointer returned is uninitialised: no
block stands behind it, which is the empty list here. -/
def read_graph (file : Option (List Char)) : Except Fault ParsedGraph :=
  match file with
  | none => .ok { graph := [], node_count := 0, edge_count := 0 }
  | some text =>
    match read_header edge_marker (stream_lines text) 0 with
    | .error f => .error f
    | .ok (node_count, rest) =>
      match read_edges rest (alloc_graph node_count) 0 with
      | .error f => .error f
      | .ok (graph, edge_count) =>
        .ok { graph := graph, node_count := node_count, edge_count := edge_count }

/-! ## read_tour -/

/-- The lines `read_tour` writes to `stderr`. -/
inductive Diag where
  /-- "Node %d is out of range" -/
  | outOfRange (node : Int)
  /-- "Not all nodes specified in tour solution expected %d found %d" -/
  | notAllNodes (expected found : Int)
  deriving DecidableEq, Repr

/-- The delimiter `node_delim` of the node lines: blank. -/
def node_delim : List Char := " ".toList

/-- The marker that ends the header of a tour file. -/
def tour_marker : List Char := "TOUR_SECTION".toList

/-- The tokens that `strtok(s, delim)` and then `strtok(NULL, delim)` return
until the result is `NULL`, at most `fuel` of them. -/
def strtok_all (delim : List Char) : Nat → List Char → List (List Char)
  | 0, _ => []
  | fuel + 1, s =>
    match strtok delim s with
    | none => []
    | some (token, more) => token :: strtok_all delim fuel more

/-- The tokens of a node line, in the order `strtok` returns them.  A string
has no more tokens than characters. -/
def line_tokens (line : List Char) : List (List Char) :=
  strtok_all node_delim (cstr line).length (cstr line)

/-- The local variables of `read_tour` during the node loop, with what was
written to `stderr`. -/
structure TourState where
  tour : List Int
  current_pos : Int
  detected_end_node : Bool
  err : List Diag
  deriving DecidableEq, Repr

/-- The loop `while (token != NULL)` of `read_tour` (lines 178-199) over the
tokens of one line: the token -1 sets `detected_end_node` and leaves the loop,
a node in `1..node_count` is stored at `current_pos`, which then advances, and
any other node is reported and skipped.  The store is not guarded: past the
block it is the fault `outOfBounds`. -/
def read_nodes_line (node_count : Int) : List (List Char) → TourState → Except Fault TourState
  | [], s => .ok s
  | token :: more, s =>
    if atoi token = -1 then .ok { s with detected_end_node := true }
    else if atoi token > 0 ∧ atoi token ≤ node_count then
      match writeAt s.tour s.current_pos (atoi token) with
      | none => .error .outOfBounds
      | some t =>
        read_nodes_line node_count more { s with tour := t, current_pos := s.current_pos + 1 }
    else
      read_nodes_line node_count more { s with err := s.err ++ [Diag.outOfRange (atoi token)] }

/-- The loop `while (!detected_end_node && fgets(...) != NULL)` of `read_tour`
(lines 175-201) over the lines left on the stream. -/
def read_nodes (node_count : Int) : List (List Char) → TourState → Except Fault TourState
  | [], s => .ok s
  | line :: rest, s =>
    if s.detected_end_node then .ok s
    else
      match read_nodes_line node_count (line_tokens line) s with
      | .error f => .error f
      | .ok s1 => read_nodes node_count rest s1

/-- The block `malloc(node_count * sizeof(int*))` of `read_tour` (lines
166-170), as `int` slots: `ptr_ints` is `sizeof(int*) / sizeof(int)`, 2 on a
64-bit platform and 1 on a 32-bit one.  The first `node_count` slots are set to
0; the slots after them are not initialised and never read, and hold 0 here.
There is no slot when `node_count` is negative. -/
def alloc_tour (ptr_ints : Nat) (node_count : Int) : List Int :=
  List.replicate (ptr_ints * node_count.toNat) 0

/-- The state before the node loop (lines 166-174): the fresh block,
`current_pos = 0`, `detected_end_node = false`. -/
def tour_init (ptr_ints : Nat) (node_count : Int) : TourState :=
  { tour := alloc_tour ptr_ints node_count, current_pos := 0,
    detected_end_node := false, err := [] }

/-- What `read_tour` hands back: the block `tour` points to, of which the
caller reads the first `node_count` slots, the count, and the lines on `stderr`. -/
structure ParsedTour where
  tour : List Int
  node_count : Int
  err : List Diag
  deriving DecidableEq, Repr

/-- The part of `read_tour` after the header (lines 165-205): the block, the
node loop over the lines left on the stream, and the comparison of
`current_pos` with `node_count`. -/
def read_tour_nodes (ptr_ints : Nat) (node_count : Int) (lines : List (List Char)) :
    Except Fault ParsedTour :=
  match read_nodes node_count lines (tour_init ptr_ints node_count) with
  | .error f => .error f
  | .ok s =>
    .ok { tour := s.tour
          node_count := node_count
          err := s.err ++
            (if s.current_pos ≠ node_count then [Diag.notAllNodes node_count s.current_pos]
             else []) }

/-- The function `read_tour` of hclib.c on the contents of the file, `none`
when `fopen` fails; then the pointer returned is uninitialised, the empty
list here. -/
def read_tour (ptr_ints : Nat) (file : Option (List Char)) : Except Fault ParsedTour :=
  match file with
  | none => .ok { tour := [], node_count := 0, err := [] }
  | some text =>
    match read_header tour_marker (stream_lines text) 0 with
    | .error f => .error f
    | .ok (node_count, rest) => read_tour_nodes ptr_ints node_count rest

/-! ## Words of the specification -/

/-- White space: blank, tab, newline, vertical tab, form feed, carriage return. -/
def whitespace (c : Char) : Bool :=
  [' ', '\t', '\n', Char.ofNat 11, Char.ofNat 12, '\r'].contains c

/-- The first white-space-separated field of a text. -/
def first_field (l : List Char) : List Char :=
  (l.dropWhile whitespace).takeWhile (fun c => !whitespace c)

/-- What follows the first field of a text. -/
def after_first_field (l : List Char) : List Char :=
  (l.dropWhile whitespace).dropWhile (fun c => !whitespace c)

/-- The value of a decimal digit, `none` for another character. -/
def digit_value (c : Char) : Option Nat :=
  match "0123456789".toList.indexOf c with
  | 10 => none
  | k => some k

/-- The number a string of decimal digits writes, after `acc`; `none` when a
character is not a digit. -/
def decimal : List Char → Nat → Option Nat
  | [], acc => some acc
  | c :: cs, acc =>
    match digit_value c with
    | none => none
    | some d => decimal cs (10 * acc + d)

/-- The integer a field writes: one or more decimal digits after an optional
minus sign; `none` when the field is not written so. -/
def integer : List Char → Option Int
  | [] => none
  | '-' :: d :: ds => (decimal (d :: ds) 0).map (fun k : Nat => -(k : Int))
  | d :: ds => (decimal (d :: ds) 0).map (fun k : Nat => (k : Int))

/-- The first integer of a line: what its first white-space-separated field
writes. -/
def first_integer (l : List Char) : Option Int := integer (first_field l)

/-- The second integer of a line: what its second white-space-separated field
writes. -/
def second_integer (l : List Char) : Option Int := integer (first_field (after_first_field l))

/-- The integer is within the range of a 32-bit `int`. -/
def int_range (a : Int) : Bool := decide (-2147483648 ≤ a ∧ a ≤ 2147483647)

/-- The field is absent, or writes an integer within the range of `int`. -/
def field_ok (f : List Char) : Bool :=
  match f, integer f with
  | [], _ => true
  | _, some a => int_range a
  | _, none => false

/-- Only blanks separate: the first white-space character other than a blank,
if there is one, begins the white space that ends the line. -/
def blanks_only : List Char → Bool
  | [] => true
  | c :: cs => if whitespace c && c != ' ' then cs.all whitespace else blanks_only cs

/-- An edge line of integers separated by blanks: no NUL character, only
blanks as separators, and the first two fields, where present, integers
within the range of `int`. -/
def edge_line (l : List Char) : Bool :=
  l.all (fun c => c != Char.ofNat 0) && blanks_only l && field_ok (first_field l) &&
    field_ok (first_field (after_first_field l))

/-- The first integer of the line is -1. -/
def sentinel_line (l : List Char) : Bool := first_integer l == some (-1)

/-- The lines before the first line whose first integer is -1. -/
def before_sentinel (lines : List (List Char)) : List (List Char) :=
  lines.takeWhile (fun l => !sentinel_line l)

/-- The lines up to and including the first line whose first integer is -1. -/
def scanned : List (List Char) → List (List Char)
  | [] => []
  | l :: ls => if sentinel_line l then [l] else l :: scanned ls

/-- The first two integers of the line are `(u, v)` or `(v, u)`, both positive. -/
def joins (l : List Char) (u v : Int) : Prop :=
  ∃ a b, first_integer l = some a ∧ second_integer l = some b ∧ 0 < a ∧ 0 < b ∧
    ((a = u ∧ b = v) ∨ (a = v ∧ b = u))

/-- A `DIMENSION` within the range of `int`, with `DIMENSION + 1`, the number
of rows of the matrix, within it too. -/
def dimension_ok (n : Int) : Bool := decide (-2147483648 ≤ n ∧ n < 2147483647)

/-- A graph file whose edge line separates its two integers by a tab. -/
def tabbed : List Char := "DIMENSION : 2\nEDGE_DATA_SECTION\n1\t2\n-1\n".toList

/-- The edge section of a graph text: the lines left on the stream once the
header is read. -/
def edge_section (text : List Char) : List (List Char) :=
  match read_header edge_marker (stream_lines text) 0 with
  | .ok (_, rest) => rest
  | .error _ => []

/-- A graph file with a repeated edge, a self-loop, a line naming node 0, a
line with one integer, the sentinel and an edge after it. -/
def repeats : List Char :=
  "DIMENSION : 2\nEDGE_DATA_SECTION\n1 2\n2 1\n2 2\n0 1\n2\n-1\n1 1\n".toList

/-- The integers of the node section, in the order `read_tour` meets them:
`atoi` of every token of every line. -/
def token_values (lines : List (List Char)) : List Int :=
  (lines.flatMap line_tokens).map atoi

/-- The nodes `read_tour` accepts among the integers `vals`: those before the
first -1 that lie in `1..n`. -/
def accepted (n : Int) (vals : List Int) : List Int :=
  (vals.takeWhile (fun a => a ≠ -1)).filter (fun a => decide (1 ≤ a ∧ a ≤ n))

/-- Row 0 and column 0 of the matrix are zero. -/
def ZeroBorder (g : List (List Int)) (n : Nat) : Prop :=
  ∀ k : Nat, k ≤ n → readGraph g 0 (k : Int) = some 0 ∧ readGraph g (k : Int) 0 = some 0

/-- A graph file whose header reads `DIMENSION : -5`. -/
def negGraph : List Char := "DIMENSION : -5\nEDGE_DATA_SECTION\n-1\n".toList

/-- A tour file whose header reads `DIMENSION : -5`. -/
def negTour : List Char := "DIMENSION : -5\nTOUR_SECTION\n-1\n".toList

/-- A tour file with an out-of-range node, and two nodes after the sentinel. -/
def shortTour : List Char := "DIMENSION : 4\nTOUR_SECTION\n1 7 2 -1 3\n4\n".toList

/-- A matrix that is not symmetric: the entries (1, 2), (2, 3) and (1, 3) only. -/
def oneWay : List (List Int) :=
  [[0, 0, 0, 0],
   [0, 0, 1, 1],
   [0, 0, 0, 1],
   [0, 0, 0, 0]]

/-- The matrix is symmetric on the nodes `0..n`. -/
def Symmetric (g : List (List Int)) (n : Nat) : Prop :=
  ∀ a b : Nat, a ≤ n → b ≤ n → readGraph g (a : Int) (b : Int) = readGraph g (b : Int) (a : Int)

/-- A tour file that declares one node and lists three nodes in range. -/
def overTour : List Char := "DIMENSION : 1\nTOUR_SECTION\n1 1 1\n-1\n".toList

/-- A file that ends right after the key `DIMENSION` and its delimiters. -/
def noValue : List Char := "NAME : x\nDIMENSION :".toList

/-- A tour file whose marker line starts with a blank. -/
def indented : List Char := "DIMENSION : 2\n TOUR_SECTION\n1 2\n-1\n".toList

/-- A tour file with three nodes. -/
def threeTour : List Char := "DIMENSION : 3\nTOUR_SECTION\n2 3 1\n-1\n".toList

/-- The character is a decimal digit. -/
def is_digit (c : Char) : Prop := 48 ≤ c.toNat ∧ c.toNat ≤ 57

/-- The graph is an `(n+1) × (n+1)` matrix. -/
def IsMatrix (g : List (List Int)) (n : Nat) : Prop :=
  g.length = n + 1 ∧ ∀ row ∈ g, row.length = n + 1

/-- Every entry of the tour lies in `lo..n`. -/
def InRange (lo : Int) (n : Nat) (t : List Int) : Prop :=
  ∀ x ∈ t, lo ≤ x ∧ x ≤ (n : Int)

/-- The entry `g[a][b]` is there and is non-zero. -/
def adjacent (g : List (List Int)) (a b : Int) : Bool :=
  match readGraph g a b with
  | some e => decide (e ≠ 0)
  | none => false

/-- The tour entry `t[i]` (0 past the end). -/
def nth (t : List Int) (i : Nat) : Int := t.getD i 0

/-- The nodes `1, ..., n` of a graph. -/
def nodes (n : Nat) : List Int := (List.range' 1 n).map Int.ofNat

/-- The first pair of consecutive nodes, starting from `prev`, whose entry in
the matrix is zero. -/
def gap (g : List (List Int)) : Int → List Int → Option (Int × Int)
  | _, [] => none
  | prev, x :: xs =>
    if prev ≠ -1 ∧ readGraph g prev x = some 0 then some (prev, x) else gap g x xs

/-- The matrix with the entries `g[a][b]` and `g[b][a]` cleared (unchanged when
either lies outside the matrix). -/
def clearEdge (g : List (List Int)) (a b : Int) : List (List Int) :=
  match writeGraph g a b 0 with
  | none => g
  | some g1 =>
    match writeGraph g1 b a 0 with
    | none => g
    | some g2 => g2

/-- What the specification expects of a run over a full matrix: the verdict
and the lines printed, from the first missing edge, the number of distinct
nodes and the closing edge. -/
def report (g : List (List Int)) (t : List Int) (n : Nat) (v : Bool) : Bool × List Msg :=
  match gap g (-1) t with
  | some (a, b) => (false, say v (Msg.noEdge a b))
  | none =>
    if (t.toFinset.card : Int) ≠ (n : Int) then
      (false, say v (Msg.notAllVisited (t.toFinset.card : Int) (n : Int)))
    else if adjacent g (nth t 0) (nth t (n - 1)) then
      (true, say v Msg.validPath ++ say v Msg.validCycle)
    else (false, say v Msg.validPath ++ say v Msg.firstNotLast)

/-- What the loop of `hc_validate` maintains once the nodes `pre` are behind it. -/
structure WalkInv (n : Nat) (pre : List Int) (s : WalkState) : Prop where
  len : s.visited_nodes.length = n + 1
  marks : ∀ k : Nat, k ≤ n →
    s.visited_nodes.get? k = some (if (k : Int) ∈ pre then 1 else 0)
  count : s.visited_node_count = (pre.toFinset.card : Int)
  prev : s.previous_node = pre.getLast?.getD (-1)

/-- The single-node graph without a self-loop, as a 2 × 2 matrix. -/
def single0 : List (List Int) := [[0, 0], [0, 0]]

/-- The path graph 1 - 2 - 3 - 4, without the edge (4, 1). -/
def path4 : List (List Int) :=
  [[0, 0, 0, 0, 0],
   [0, 0, 1, 0, 0],
   [0, 1, 0, 1, 0],
   [0, 0, 1, 0, 1],
   [0, 0, 0, 1, 0]]

/-- A walk state with what was printed forgotten. -/
def quiet (s : WalkState) : WalkState := { s with out := [] }

/-- A graph file with two nodes, the edge (1, 2), the sentinel and a line after it. -/
def twoNodes : List Char :=
  "NAME : two\nDIMENSION : 2\nEDGE_DATA_SECTION\n1 2\n-1\n2 2\n".toList

/-! ## Basic facts -/

theorem readAt_natCast {α : Type} (xs : List α) (k : Nat) :
    readAt xs (k : Int) = xs.get? k := by
  simp [readAt]

theorem readAt_append_length {α : Type} (pre rest : List α) (x : α) :
    readAt (pre ++ x :: rest) (pre.length : Int) = some x := by
  rw [readAt_natCast]
  induction pre with
  | nil => simp
  | cons a l ih => simpa using ih

theorem readGraph_natCast (g : List (List Int)) (a b : Nat) :
    readGraph g (a : Int) (b : Int) = (g.get? a).bind (fun row => row.get? b) := by
  simp only [readGraph, readAt_natCast]
  cases g.get? a <;> simp

theorem IsMatrix.readable {g : List (List Int)} {n : Nat} (hg : IsMatrix g n)
    {a b : Nat} (ha : a ≤ n) (hb : b ≤ n) : ∃ e, readGraph g (a : Int) (b : Int) = some e := by
  obtain ⟨hl, hr⟩ := hg
  have ha' : a < g.length := by omega
  have hrow : (g.get ⟨a, ha'⟩).length = n + 1 := hr _ (List.get_mem _ _ _)
  have hb' : b < (g.get ⟨a, ha'⟩).length := by omega
  refine ⟨(g.get ⟨a, ha'⟩).get ⟨b, hb'⟩, ?_⟩
  rw [readGraph_natCast, List.get?_eq_get ha']
  simp [List.get?_eq_get hb']

theorem IsMatrix.write {g : List (List Int)} {n : Nat} (hg : IsMatrix g n)
    {a b : Nat} (ha : a ≤ n) (hb : b ≤ n) (x : Int) :
    ∃ g1, writeGraph g (a : Int) (b : Int) x = some g1 ∧ IsMatrix g1 n ∧
      ∀ c d : Int, readGraph g1 c d =
        if c = (a : Int) ∧ d = (b : Int) then some x else readGraph g c d := by
  obtain ⟨hlen, hrows⟩ := hg
  have ha1 : a < g.length := by omega
  have hrow : g[a].length = n + 1 := hrows _ (List.getElem_mem _)
  have hb1 : b < g[a].length := by omega
  refine ⟨g.set a (g[a].set b x), ?_, ⟨?_, ?_⟩, ?_⟩
  · simp only [writeGraph, readAt_natCast, List.get?_eq_getElem?, List.getElem?_eq_getElem ha1,
      writeAt]
    simp [hb1, ha1]
  · simp [hlen]
  · intro row hmem
    rcases List.mem_or_eq_of_mem_set hmem with h | h
    · exact hrows row h
    · rw [h]; simpa using hrow
  · intro c d
    by_cases hc : 0 ≤ c
    · obtain ⟨c, rfl⟩ := Int.eq_ofNat_of_zero_le hc
      by_cases hd : 0 ≤ d
      · obtain ⟨d, rfl⟩ := Int.eq_ofNat_of_zero_le hd
        simp only [readGraph_natCast, Nat.cast_inj]
        by_cases hca : c = a
        · subst hca
          by_cases hdb : d = b
          · subst hdb
            simp [List.getElem?_set, ha1, hb1]
          · have hbd : ¬ b = d := fun e => hdb e.symm
            simp [List.getElem?_set, ha1, hdb, hbd, List.getElem?_eq_getElem ha1]
        · have hac : ¬ a = c := fun e => hca e.symm
          simp [List.getElem?_set, hca, hac]
      · have hdb : ¬ d = (b : Int) := by omega
        simp only [hdb, and_false, if_false]
        simp only [readGraph, readAt_natCast]
        cases (g.set a (g[a].set b x)).get? c <;> cases g.get? c <;> simp [readAt, hd]
    · have hca : ¬ c = (a : Int) := by omega
      simp [readGraph, readAt, hc, hca]

theorem IsMatrix.clearEdge {g : List (List Int)} {n : Nat} (hg : IsMatrix g n)
    {a b : Nat} (ha : a ≤ n) (hb : b ≤ n) :
    IsMatrix (clearEdge g (a : Int) (b : Int)) n ∧
      ∀ c d : Int, readGraph (clearEdge g (a : Int) (b : Int)) c d =
        if (c = (a : Int) ∧ d = (b : Int)) ∨ (c = (b : Int) ∧ d = (a : Int)) then some 0
        else readGraph g c d := by
  obtain ⟨g1, h1, m1, r1⟩ := hg.write ha hb 0
  obtain ⟨g2, h2, m2, r2⟩ := m1.write hb ha 0
  have hce : HC.clearEdge g (a : Int) (b : Int) = g2 := by simp [HC.clearEdge, h1, h2]
  rw [hce]
  refine ⟨m2, fun c d => ?_⟩
  rw [r2, r1]
  by_cases hba : c = (b : Int) ∧ d = (a : Int)
  · simp [hba]
  · by_cases hab : c = (a : Int) ∧ d = (b : Int)
    · simp [hab]
    · simp [hba, hab]

theorem card_toFinset_concat (pre : List Int) (x : Int) :
    (pre ++ [x]).toFinset.card =
      if x ∈ pre then pre.toFinset.card else pre.toFinset.card + 1 := by
  have h : (pre ++ [x]).toFinset = insert x pre.toFinset := by
    ext y
    simp [or_comm]
  rw [h]
  by_cases hx : x ∈ pre
  · have : x ∈ pre.toFinset := by simpa using hx
    simp [hx, Finset.card_insert_of_mem this]
  · have : x ∉ pre.toFinset := by simpa using hx
    simp [hx, Finset.card_insert_of_not_mem this]

/-! ## The walk loop -/

theorem walkInv_init (n : Nat) : WalkInv n [] (walkInit (n : Int)) := by
  have h : ((n : Int) + 1).toNat = n + 1 := by omega
  refine ⟨?_, ?_, ?_, ?_⟩
  · simp [walkInit, h]
  · intro k hk
    simp only [walkInit, h]
    have hk' : k < n + 1 := by omega
    simp [List.getElem?_replicate, hk']
  · simp [walkInit]
  · simp [walkInit]

theorem check_edge_pass (g : List (List Int)) (v : Bool) (x : Int) (s : WalkState)
    (h : s.previous_node = -1 ∨ ∃ e, readGraph g s.previous_node x = some e ∧ e ≠ 0) :
    ∃ s1, check_edge g v x s = .ok (true, s1) ∧ s1.visited_nodes = s.visited_nodes ∧
      s1.previous_node = s.previous_node ∧ s1.visited_node_count = s.visited_node_count ∧
      s1.valid = s.valid ∧ s1.out = s.out := by
  by_cases hp : s.previous_node = -1
  · exact ⟨s, by simp [check_edge, hp], rfl, rfl, rfl, rfl, rfl⟩
  · rcases h with h | ⟨e, he, hne⟩
    · exact absurd h hp
    · refine ⟨{ s with reads := s.reads ++ [Access.graph s.previous_node x] }, ?_,
        rfl, rfl, rfl, rfl, rfl⟩
      simp [check_edge, hp, he, hne]

theorem check_edge_fail (g : List (List Int)) (v : Bool) (x : Int) (s : WalkState)
    (hp : s.previous_node ≠ -1) (he : readGraph g s.previous_node x = some 0) :
    ∃ s1, check_edge g v x s = .ok (false, s1) ∧ s1.valid = false ∧
      s1.out = s.out ++ say v (Msg.noEdge s.previous_node x) := by
  refine ⟨{ s with
      reads := s.reads ++ [Access.graph s.previous_node x]
      valid := false
      out := s.out ++ say v (Msg.noEdge s.previous_node x) }, ?_, rfl, rfl⟩
  simp [check_edge, hp, he]

theorem mark_visited_inv {n : Nat} {pre : List Int} {s : WalkState} (h : WalkInv n pre s)
    (k : Nat) (hk : k ≤ n) :
    ∃ s', mark_visited (k : Int) s = .ok s' ∧ WalkInv n (pre ++ [(k : Int)]) s' ∧
      s'.valid = s.valid ∧ s'.out = s.out ∧ s'.reads = s.reads := by
  have hread := h.marks k hk
  have hlast : (pre ++ [(k : Int)]).getLast?.getD (-1) = (k : Int) := by simp
  by_cases hmem : (k : Int) ∈ pre
  · refine ⟨{ s with previous_node := (k : Int) }, ?_, ⟨h.len, ?_, ?_, ?_⟩, rfl, rfl, rfl⟩
    · simp [mark_visited, readAt_natCast, hmem] at hread ⊢
      simp [hread]
    · intro j hj
      have := h.marks j hj
      by_cases hjk : (j : Int) = (k : Int)
      · simpa [hjk, hmem] using this
      · simpa [hjk] using this
    · rw [h.count, card_toFinset_concat]
      simp [hmem]
    · exact hlast.symm
  · have hlt : k < s.visited_nodes.length := by rw [h.len]; omega
    refine ⟨{ s with
        visited_nodes := s.visited_nodes.set k 1
        visited_node_count := s.visited_node_count + 1
        previous_node := (k : Int) }, ?_, ⟨?_, ?_, ?_, ?_⟩, rfl, rfl, rfl⟩
    · simp [hmem] at hread
      simp [mark_visited, readAt_natCast, writeAt, hread, hlt]
    · simp [h.len]
    · intro j hj
      have := h.marks j hj
      by_cases hjk : j = k
      · subst hjk
        simp [List.getElem?_set, hlt]
      · have hjk' : ¬ (j : Int) = (k : Int) := by omega
        have hkj : ¬ k = j := fun e => hjk e.symm
        simpa [List.getElem?_set, hkj, hjk'] using this
    · show s.visited_node_count + 1 = _
      rw [h.count, card_toFinset_concat]
      simp [hmem]
    · exact hlast.symm

theorem WalkInv.prev_cases {n : Nat} {pre : List Int} {s : WalkState} (h : WalkInv n pre s)
    (hp : InRange 0 n pre) :
    s.previous_node = -1 ∨ ∃ j : Nat, j ≤ n ∧ s.previous_node = (j : Int) := by
  rw [h.prev]
  cases hl : pre.getLast? with
  | none => left; rfl
  | some y =>
    right
    obtain ⟨h0, hn⟩ := hp y (List.mem_of_getLast?_eq_some hl)
    obtain ⟨j, rfl⟩ := Int.eq_ofNat_of_zero_le h0
    exact ⟨j, by exact_mod_cast hn, rfl⟩

/-- The loop on a tour in range over a full matrix: it never faults, stops at
the first missing edge, and otherwise counts the distinct nodes. -/
theorem walk_run (g : List (List Int)) (v : Bool) (n : Nat) (hg : IsMatrix g n) :
    ∀ (rest pre : List Int) (s : WalkState), InRange 0 n rest → InRange 0 n pre →
      WalkInv n pre s →
      ∃ s', walk (pre ++ rest) g v rest.length (pre.length : Int) s = .ok s' ∧
        match gap g s.previous_node rest with
        | some (a, b) => s'.valid = false ∧ s'.out = s.out ++ say v (Msg.noEdge a b)
        | none => s'.valid = s.valid ∧ s'.out = s.out ∧
            s'.visited_node_count = ((pre ++ rest).toFinset.card : Int) := by
  intro rest
  induction rest with
  | nil =>
    intro pre s _ _ h
    exact ⟨s, by simp [walk], by simp [gap, h.count]⟩
  | cons x xs ih =>
    intro pre s hr hp h
    obtain ⟨hx0, hxn⟩ := hr x (List.mem_cons_self _ _)
    obtain ⟨k, rfl⟩ := Int.eq_ofNat_of_zero_le hx0
    have hk : k ≤ n := by exact_mod_cast hxn
    have hrd := readAt_append_length pre xs (k : Int)
    by_cases hgap : s.previous_node ≠ -1 ∧ readGraph g s.previous_node (k : Int) = some 0
    · obtain ⟨s1, hs1, hv, ho⟩ := check_edge_fail g v (k : Int)
        { s with reads := s.reads ++ [Access.tour (pre.length : Int)] } hgap.1 hgap.2
      refine ⟨s1, ?_, ?_⟩
      · simp only [List.length_cons, walk, hrd, hs1]
      · have hg1 : gap g s.previous_node ((k : Int) :: xs) = some (s.previous_node, (k : Int)) :=
          if_pos hgap
        rw [hg1]
        exact ⟨hv, ho⟩
    · have hpass : s.previous_node = -1 ∨
          ∃ e, readGraph g s.previous_node (k : Int) = some e ∧ e ≠ 0 := by
        rcases h.prev_cases hp with h1 | ⟨j, hj, hpj⟩
        · exact Or.inl h1
        · right
          obtain ⟨e, he⟩ := hg.readable hj hk
          refine ⟨e, hpj ▸ he, ?_⟩
          rintro rfl
          exact hgap ⟨by rw [hpj]; omega, hpj ▸ he⟩
      obtain ⟨s1, hs1, e1, e2, e3, e4, e5⟩ := check_edge_pass g v (k : Int)
        { s with reads := s.reads ++ [Access.tour (pre.length : Int)] } hpass
      have inv1 : WalkInv n pre s1 :=
        ⟨by rw [e1]; exact h.len, by rw [e1]; exact h.marks, by rw [e3]; exact h.count,
          by rw [e2]; exact h.prev⟩
      obtain ⟨s2, hs2, inv2, hv2, ho2, _⟩ := mark_visited_inv inv1 k hk
      have hr' : InRange 0 n xs := fun y hy => hr y (List.mem_cons_of_mem _ hy)
      have hp' : InRange 0 n (pre ++ [(k : Int)]) := by
        intro y hy
        rcases List.mem_append.1 hy with hy | hy
        · exact hp y hy
        · rw [List.mem_singleton.1 hy]; exact ⟨hx0, hxn⟩
      obtain ⟨s', hw, hres⟩ := ih (pre ++ [(k : Int)]) s2 hr' hp' inv2
      have hlist : pre ++ (k : Int) :: xs = (pre ++ [(k : Int)]) ++ xs := by simp
      have hpos : ((pre.length : Int) + 1) = ((pre ++ [(k : Int)]).length : Int) := by simp
      refine ⟨s', ?_, ?_⟩
      · simp only [List.length_cons, walk, hrd, hs1, hs2]
        rw [hlist, hpos]
        exact hw
      · have hprev2 : s2.previous_node = (k : Int) := by rw [inv2.prev]; simp
        rw [hprev2] at hres
        have hg1 : gap g s.previous_node ((k : Int) :: xs) = gap g (k : Int) xs := if_neg hgap
        rw [hg1, hlist]
        cases hgp : gap g (k : Int) xs with
        | none =>
          rw [hgp] at hres
          exact ⟨by rw [hres.1, hv2, e4], by rw [hres.2.1, ho2, e5], hres.2.2⟩
        | some p =>
          rw [hgp] at hres
          obtain ⟨a, b⟩ := p
          exact ⟨hres.1, by rw [hres.2, ho2, e5]⟩

theorem readAt_nth (t : List Int) (i : Nat) (h : i < t.length) :
    readAt t (i : Int) = some (nth t i) := by
  rw [readAt_natCast]
  simp [nth, List.getD, List.getElem?_eq_getElem h]

/-- On a full matrix and a tour in range `hc_validate` returns, with the
verdict and the lines of `report`. -/
theorem hc_validate_run (g : List (List Int)) (t : List Int) (n : Nat) (v : Bool)
    (hn : 1 ≤ n) (hg : IsMatrix g n) (hl : t.length = n) (hr : InRange 0 n t) :
    ∃ o, hc_validate t (n : Int) g (n : Int) v = .ok o ∧ (o.valid, o.out) = report g t n v := by
  have hn0 : ¬ (n : Int) = 0 := by omega
  obtain ⟨s, hw, hres⟩ := walk_run g v n hg t [] (walkInit (n : Int)) hr
    (fun _ h => absurd h (List.not_mem_nil _)) (walkInv_init n)
  have hw' : walk t g v (n : Int).toNat 0 (walkInit (n : Int)) = .ok s := by
    simpa [hl] using hw
  have hprev : (walkInit (n : Int)).previous_node = -1 := rfl
  rw [hprev] at hres
  simp only [hc_validate, ne_eq, not_true_eq_false, if_false, hn0, hw']
  cases hgp : gap g (-1) t with
  | some p =>
    obtain ⟨a, b⟩ := p
    rw [hgp] at hres
    simp [finish, report, hgp, hres.1, hres.2, walkInit]
  | none =>
    rw [hgp] at hres
    obtain ⟨hv, ho, hc⟩ := hres
    have hv' : s.valid = true := by rw [hv]; rfl
    have ho' : s.out = [] := by rw [ho]; rfl
    simp only [List.nil_append] at hc
    by_cases hcard : (t.toFinset.card : Int) = (n : Int)
    · have h0 : readAt t 0 = some (nth t 0) := by
        have := readAt_nth t 0 (by omega)
        simpa using this
      have h1 : readAt t ((n : Int) - 1) = some (nth t (n - 1)) := by
        have := readAt_nth t (n - 1) (by omega)
        rwa [Nat.cast_sub hn, Nat.cast_one] at this
      have hin : ∀ i, i < n → ∃ k : Nat, k ≤ n ∧ nth t i = (k : Int) := by
        intro i hi
        have hmem : nth t i ∈ t := by
          have hi' : i < t.length := by omega
          simp [nth, List.getD, List.getElem?_eq_getElem hi']
        obtain ⟨h0, h1⟩ := hr _ hmem
        obtain ⟨k, hk⟩ := Int.eq_ofNat_of_zero_le h0
        exact ⟨k, by rw [hk] at h1; exact_mod_cast h1, hk⟩
      obtain ⟨a, ha, hae⟩ := hin 0 (by omega)
      obtain ⟨b, hb, hbe⟩ := hin (n - 1) (by omega)
      obtain ⟨e, he⟩ := hg.readable ha hb
      rw [← hae, ← hbe] at he
      by_cases he0 : e = 0
      · cases v <;>
          simp [finish, hv', hc, hcard, h0, h1, he, he0, report, hgp, adjacent, ho', say]
      · cases v <;>
          simp [finish, hv', hc, hcard, h0, h1, he, he0, report, hgp, adjacent, ho', say]
    · simp [finish, hv', hc, hcard, report, hgp, ho']

/-! ## Tours as lists -/

theorem nth_eq_get (t : List Int) (i : Nat) (h : i < t.length) : nth t i = t.get ⟨i, h⟩ := by
  simp [nth, List.getD, List.getElem?_eq_getElem h]

theorem nth_mem (t : List Int) (i : Nat) (h : i < t.length) : nth t i ∈ t := by
  rw [nth_eq_get t i h]
  exact List.get_mem _ _ _

theorem exists_nth_of_mem (t : List Int) (x : Int) (h : x ∈ t) :
    ∃ i, i < t.length ∧ nth t i = x := by
  obtain ⟨i, hi⟩ := List.get_of_mem h
  exact ⟨i.1, i.2, by rw [nth_eq_get t i.1 i.2]; exact hi⟩

theorem chain_nth (R : Int → Int → Prop) (t : List Int) :
    List.Chain' R t ↔ ∀ i, i + 1 < t.length → R (nth t i) (nth t (i + 1)) := by
  rw [List.chain'_iff_get]
  constructor
  · intro h i hi
    have := h i (by omega)
    rwa [← nth_eq_get, ← nth_eq_get] at this
  · intro h i hi
    have := h i (by omega)
    rwa [nth_eq_get t i (by omega), nth_eq_get t (i + 1) (by omega)] at this

theorem card_toFinset_eq_length_iff (t : List Int) :
    t.toFinset.card = t.length ↔ t.Nodup := by
  simpa using Multiset.toFinset_card_eq_card_iff_nodup (m := (t : Multiset Int))

theorem nodes_length (n : Nat) : (nodes n).length = n := by simp [nodes]

theorem mem_nodes (n : Nat) (x : Int) : x ∈ nodes n ↔ 1 ≤ x ∧ x ≤ (n : Int) := by
  simp only [nodes, List.mem_map, List.mem_range'_1]
  constructor
  · rintro ⟨k, ⟨h1, h2⟩, rfl⟩
    simp only [Int.ofNat_eq_coe]
    omega
  · rintro ⟨h1, h2⟩
    refine ⟨x.toNat, ⟨by omega, by omega⟩, ?_⟩
    simp only [Int.ofNat_eq_coe]
    omega

theorem nodes_nodup (n : Nat) : (nodes n).Nodup := by
  unfold nodes
  refine List.Nodup.map ?_ (List.nodup_range' 1 n)
  intro a b h
  simpa using h

theorem perm_nodes_iff (n : Nat) (t : List Int) (hl : t.length = n) :
    t.Perm (nodes n) ↔ t.Nodup ∧ ∀ x ∈ t, 1 ≤ x ∧ x ≤ (n : Int) := by
  constructor
  · intro h
    exact ⟨h.nodup_iff.2 (nodes_nodup n), fun x hx => (mem_nodes n x).1 (h.subset hx)⟩
  · rintro ⟨hnd, hin⟩
    have hsub : t ⊆ nodes n := fun x hx => (mem_nodes n x).2 (hin x hx)
    exact (List.subperm_of_subset hnd hsub).perm_of_length_le (by rw [nodes_length, hl])

/-! ## The first missing edge -/

theorem adjacent_eq_false_iff (g : List (List Int)) (a b e : Int)
    (h : readGraph g a b = some e) : adjacent g a b = false ↔ readGraph g a b = some 0 := by
  by_cases he : e = 0 <;> simp [adjacent, h, he]

theorem gap_eq_none_iff {g : List (List Int)} {n : Nat} (hg : IsMatrix g n) :
    ∀ (xs : List Int) (p : Nat), p ≤ n → InRange 0 n xs →
      (gap g (p : Int) xs = none ↔ List.Chain (fun a b => adjacent g a b = true) (p : Int) xs) := by
  intro xs
  induction xs with
  | nil => intro p _ _; simp [gap]
  | cons x xs ih =>
    intro p hp hr
    obtain ⟨hx0, hxn⟩ := hr x (List.mem_cons_self _ _)
    obtain ⟨k, rfl⟩ := Int.eq_ofNat_of_zero_le hx0
    have hk : k ≤ n := by exact_mod_cast hxn
    have hr' : InRange 0 n xs := fun y hy => hr y (List.mem_cons_of_mem _ hy)
    obtain ⟨e, he⟩ := hg.readable hp hk
    have hp1 : ((p : Int) ≠ -1) := by omega
    rw [List.chain_cons, ← ih k hk hr']
    by_cases h0 : readGraph g (p : Int) (k : Int) = some 0
    · have : adjacent g (p : Int) (k : Int) = false := (adjacent_eq_false_iff g _ _ e he).2 h0
      simp [gap, hp1, h0, this]
    · have : adjacent g (p : Int) (k : Int) = true := by
        cases hadj : adjacent g (p : Int) (k : Int) with
        | true => rfl
        | false => exact absurd ((adjacent_eq_false_iff g _ _ e he).1 hadj) h0
      simp [gap, h0, this]

theorem gap_start_eq_none_iff {g : List (List Int)} {n : Nat} (hg : IsMatrix g n)
    (t : List Int) (hr : InRange 0 n t) :
    gap g (-1) t = none ↔
      ∀ i, i + 1 < t.length → adjacent g (nth t i) (nth t (i + 1)) = true := by
  rw [← chain_nth (fun a b => adjacent g a b = true) t]
  cases t with
  | nil => simp [gap]
  | cons x xs =>
    obtain ⟨hx0, hxn⟩ := hr x (List.mem_cons_self _ _)
    obtain ⟨k, rfl⟩ := Int.eq_ofNat_of_zero_le hx0
    have hk : k ≤ n := by exact_mod_cast hxn
    have hr' : InRange 0 n xs := fun y hy => hr y (List.mem_cons_of_mem _ hy)
    have : gap g (-1) ((k : Int) :: xs) = gap g (k : Int) xs := by simp [gap]
    rw [this, gap_eq_none_iff hg xs k hk hr']
    rfl

theorem report_valid_iff (g : List (List Int)) (t : List Int) (n : Nat) (v : Bool) :
    (report g t n v).1 = true ↔
      gap g (-1) t = none ∧ (t.toFinset.card : Int) = (n : Int) ∧
        adjacent g (nth t 0) (nth t (n - 1)) = true := by
  unfold report
  cases hgp : gap g (-1) t with
  | some p => simp
  | none =>
    by_cases hc : (t.toFinset.card : Int) = (n : Int)
    · by_cases ha : adjacent g (nth t 0) (nth t (n - 1)) = true <;> simp [hc, ha]
    · simp [hc]

/-- A tour accepted over a matrix whose row 0 and column 0 are zero does not
pass through node 0. -/
theorem zero_not_mem_of_edges {g : List (List Int)} {n : Nat} {t : List Int}
    (hzero : ∀ k : Nat, k ≤ n → readGraph g 0 (k : Int) = some 0 ∧ readGraph g (k : Int) 0 = some 0)
    (hl : t.length = n) (hr : InRange 0 n t)
    (hchain : ∀ i, i + 1 < n → adjacent g (nth t i) (nth t (i + 1)) = true)
    (hclose : adjacent g (nth t 0) (nth t (n - 1)) = true) : (0 : Int) ∉ t := by
  intro hmem
  obtain ⟨i, hi, hi0⟩ := exists_nth_of_mem t 0 hmem
  have hnat : ∀ j, j < n → ∃ k : Nat, k ≤ n ∧ nth t j = (k : Int) := by
    intro j hj
    obtain ⟨h0, h1⟩ := hr _ (nth_mem t j (by omega))
    obtain ⟨k, hk⟩ := Int.eq_ofNat_of_zero_le h0
    exact ⟨k, by rw [hk] at h1; exact_mod_cast h1, hk⟩
  have hrow : ∀ k : Nat, k ≤ n → adjacent g 0 (k : Int) = false := fun k hk => by
    simp [adjacent, (hzero k hk).1]
  have hcol : ∀ k : Nat, k ≤ n → adjacent g (k : Int) 0 = false := fun k hk => by
    simp [adjacent, (hzero k hk).2]
  by_cases h1 : i + 1 < n
  · obtain ⟨k, hk, hke⟩ := hnat (i + 1) h1
    have := hchain i h1
    rw [hi0, hke, hrow k hk] at this
    exact Bool.noConfusion this
  · by_cases h2 : i = 0
    · have hn1 : n - 1 = 0 := by omega
      subst h2
      rw [hn1, hi0] at hclose
      have := hrow 0 (Nat.zero_le _)
      simp only [Nat.cast_zero] at this
      rw [this] at hclose
      exact Bool.noConfusion hclose
    · obtain ⟨k, hk, hke⟩ := hnat (i - 1) (by omega)
      have := hchain (i - 1) (by omega)
      have hii : i - 1 + 1 = i := by omega
      rw [hii, hi0, hke, hcol k hk] at this
      exact Bool.noConfusion this

theorem gap_first (g : List (List Int)) :
    ∀ (xs : List Int) (p : Int) (i : Nat), p ≠ -1 → (∀ y ∈ xs, y ≠ -1) → i < xs.length →
      (∀ j, j < i → readGraph g (nth (p :: xs) j) (nth (p :: xs) (j + 1)) ≠ some 0) →
      readGraph g (nth (p :: xs) i) (nth (p :: xs) (i + 1)) = some 0 →
      gap g p xs = some (nth (p :: xs) i, nth (p :: xs) (i + 1)) := by
  intro xs
  induction xs with
  | nil => intro p i _ _ hi; exact absurd hi (Nat.not_lt_zero _)
  | cons x xs ih =>
    intro p i hp hne hi hbefore hat
    cases i with
    | zero =>
      have h0 : readGraph g p x = some 0 := by simpa [nth] using hat
      simp [gap, hp, h0, nth]
    | succ i =>
      have h0 : ¬ (p ≠ -1 ∧ readGraph g p x = some 0) := by
        have := hbefore 0 (Nat.succ_pos _)
        intro h
        exact this (by simpa [nth] using h.2)
      have hstep : gap g p (x :: xs) = gap g x xs := if_neg h0
      have hshift : ∀ j, nth (p :: x :: xs) (j + 1) = nth (x :: xs) j := fun j => by simp [nth]
      rw [hstep, hshift, hshift]
      have hx : x ≠ -1 := hne x (List.mem_cons_self _ _)
      refine ih x i hx (fun y hy => hne y (List.mem_cons_of_mem _ hy)) (by simpa using hi)
        (fun j hj => ?_) (by rw [← hshift, ← hshift]; exact hat)
      have := hbefore (j + 1) (by omega)
      rwa [hshift, hshift] at this

theorem gap_start_first (g : List (List Int)) (t : List Int) (i : Nat)
    (hne : ∀ y ∈ t, y ≠ -1) (hi : i + 1 < t.length)
    (hbefore : ∀ j, j < i → readGraph g (nth t j) (nth t (j + 1)) ≠ some 0)
    (hat : readGraph g (nth t i) (nth t (i + 1)) = some 0) :
    gap g (-1) t = some (nth t i, nth t (i + 1)) := by
  cases t with
  | nil => exact absurd hi (Nat.not_lt_zero _)
  | cons x xs =>
    have hstep : gap g (-1) (x :: xs) = gap g x xs := by simp [gap]
    rw [hstep]
    exact gap_first g xs x i (hne x (List.mem_cons_self _ _))
      (fun y hy => hne y (List.mem_cons_of_mem _ hy)) (by simpa using hi) hbefore hat

theorem nth_inj (t : List Int) (hnd : t.Nodup) (i j : Nat) (hi : i < t.length)
    (hj : j < t.length) (h : nth t i = nth t j) : i = j := by
  rw [nth_eq_get t i hi, nth_eq_get t j hj] at h
  have := (hnd.get_inj_iff).1 h
  exact congrArg Fin.val this

/-! ## What an accepting run tells about the tour -/

theorem check_edge_ok (g : List (List Int)) (v : Bool) (x : Int) (s s1 : WalkState) (b : Bool)
    (h : check_edge g v x s = .ok (b, s1)) :
    s1.visited_nodes = s.visited_nodes ∧ (b = false → s1.valid = false) := by
  unfold check_edge at h
  split at h
  · split at h
    · exact Except.noConfusion h
    · split at h
      · injection h with h
        injection h with hb hs
        subst hs
        exact ⟨rfl, fun _ => rfl⟩
      · injection h with h
        injection h with hb hs
        subst hs
        subst hb
        exact ⟨rfl, fun h => Bool.noConfusion h⟩
  · injection h with h
    injection h with hb hs
    subst hs
    subst hb
    exact ⟨rfl, fun h => Bool.noConfusion h⟩

theorem mark_visited_ok (x : Int) (s s2 : WalkState) (h : mark_visited x s = .ok s2) :
    (0 ≤ x ∧ x.toNat < s.visited_nodes.length) ∧
      s2.visited_nodes.length = s.visited_nodes.length := by
  unfold mark_visited at h
  split at h
  · exact Except.noConfusion h
  · rename_i seen hseen
    have hx : 0 ≤ x ∧ x.toNat < s.visited_nodes.length := by
      unfold readAt at hseen
      split at hseen
      · rename_i h0
        exact ⟨h0, (List.get?_eq_some.1 hseen).1⟩
      · exact Option.noConfusion hseen
    refine ⟨hx, ?_⟩
    split at h
    · split at h
      · exact Except.noConfusion h
      · rename_i vs hvs
        injection h with h
        subst h
        simp only [writeAt, hx, and_self, if_true, Option.some.injEq] at hvs
        subst hvs
        simp
    · injection h with h
      subst h
      rfl

/-- A walk that ends with `valid` still set has read only nodes in `0..n`. -/
theorem walk_valid_inRange (g : List (List Int)) (v : Bool) (n : Nat) :
    ∀ (rest pre : List Int) (s s1 : WalkState), s.visited_nodes.length = n + 1 →
      walk (pre ++ rest) g v rest.length (pre.length : Int) s = .ok s1 → s1.valid = true →
      InRange 0 n rest := by
  intro rest
  induction rest with
  | nil => intro _ _ _ _ _ _ x hx; exact absurd hx (List.not_mem_nil _)
  | cons x xs ih =>
    intro pre s s1 hlen hw hv
    simp only [List.length_cons, walk, readAt_append_length] at hw
    split at hw
    · exact Except.noConfusion hw
    · rename_i sb hce
      injection hw with hw
      subst hw
      have := (check_edge_ok g v x _ _ false hce).2 rfl
      rw [hv] at this
      exact Bool.noConfusion this
    · rename_i sb hce
      have hvis := (check_edge_ok g v x _ _ true hce).1
      split at hw
      · exact Except.noConfusion hw
      · rename_i s2 hmv
        obtain ⟨⟨hx0, hxl⟩, hl2⟩ := mark_visited_ok x sb s2 hmv
        rw [hvis] at hxl hl2
        simp only at hxl hl2
        have hlist : pre ++ x :: xs = (pre ++ [x]) ++ xs := by simp
        have hpos : ((pre.length : Int) + 1) = ((pre ++ [x]).length : Int) := by simp
        rw [hlist, hpos] at hw
        have hrest := ih (pre ++ [x]) s2 s1 (by rw [hl2, hlen]) hw hv
        intro y hy
        rcases List.mem_cons.1 hy with rfl | hy
        · exact ⟨hx0, by omega⟩
        · exact hrest y hy

theorem finish_valid (t : List Int) (g : List (List Int)) (n : Int) (v : Bool)
    (s : WalkState) (o : Outcome) (h : finish t g n v s = .ok o) (hv : o.valid = true) :
    s.valid = true := by
  cases hs : s.valid with
  | true => rfl
  | false =>
    simp [finish, hs] at h
    rw [← h] at hv
    exact Bool.noConfusion hv

/-- A tour of length `n` that `hc_validate` accepts has `n ≥ 1` and entries in `0..n`. -/
theorem accepted_inRange (g : List (List Int)) (t : List Int) (n : Nat) (v : Bool)
    (hl : t.length = n) (o : Outcome)
    (h : hc_validate t (n : Int) g (n : Int) v = .ok o) (hv : o.valid = true) :
    1 ≤ n ∧ InRange 0 n t := by
  have hn : 1 ≤ n := by
    rcases Nat.eq_zero_or_pos n with h0 | h0
    · subst h0
      simp [hc_validate] at h
      rw [← h] at hv
      exact Bool.noConfusion hv
    · exact h0
  refine ⟨hn, ?_⟩
  have hn0 : ¬ (n : Int) = 0 := by omega
  simp only [hc_validate, ne_eq, not_true_eq_false, if_false, hn0] at h
  split at h
  · exact Except.noConfusion h
  · rename_i s hw
    have hsv := finish_valid t g (n : Int) v s o h hv
    have hlen : (walkInit (n : Int)).visited_nodes.length = n + 1 := (walkInv_init n).len
    refine walk_valid_inRange g v n t [] (walkInit (n : Int)) s hlen ?_ hsv
    simpa [hl] using hw

/-- C1: for every `n ≥ 1`, every `(n+1) × (n+1)` matrix whose row 0 and
column 0 are zero and every tour of length `n` with entries in `0..n`,
`hc_validate` returns, and it returns true exactly when the tour is a
permutation of `1..n`, every `g[t[i]][t[i+1]]` with `i + 1 < n` is non-zero and
`g[t[0]][t[n-1]]` is non-zero. -/
theorem hc_validate_iff_hamiltonian_cycle (n : Nat) (g : List (List Int)) (t : List Int)
    (verbose : Bool) (hn : 1 ≤ n) (hg : IsMatrix g n)
    (hzero : ∀ k : Nat, k ≤ n →
      readGraph g 0 (k : Int) = some 0 ∧ readGraph g (k : Int) 0 = some 0)
    (hl : t.length = n) (hr : InRange 0 n t) :
    ∃ o, hc_validate t (n : Int) g (n : Int) verbose = .ok o ∧
      (o.valid = true ↔
        (t.Perm (nodes n) ∧
          (∀ i, i + 1 < n → adjacent g (nth t i) (nth t (i + 1)) = true) ∧
          adjacent g (nth t 0) (nth t (n - 1)) = true)) := by
  obtain ⟨o, ho, hrep⟩ := hc_validate_run g t n verbose hn hg hl hr
  refine ⟨o, ho, ?_⟩
  have hval : o.valid = (report g t n verbose).1 := congrArg Prod.fst hrep
  rw [hval, report_valid_iff, gap_start_eq_none_iff hg t hr, hl]
  constructor
  · rintro ⟨hchain, hcard, hclose⟩
    have hnd : t.Nodup := by
      rw [← card_toFinset_eq_length_iff, hl]
      exact_mod_cast hcard
    have hz := zero_not_mem_of_edges hzero hl hr hchain hclose
    refine ⟨(perm_nodes_iff n t hl).2 ⟨hnd, fun x hx => ?_⟩, hchain, hclose⟩
    obtain ⟨h0, h1⟩ := hr x hx
    have : x ≠ 0 := fun h => hz (h ▸ hx)
    exact ⟨by omega, h1⟩
  · rintro ⟨hperm, hchain, hclose⟩
    have hnd := ((perm_nodes_iff n t hl).1 hperm).1
    have := (card_toFinset_eq_length_iff t).2 hnd
    exact ⟨hchain, by rw [this, hl], hclose⟩

/-- The 4-cycle and the tour 1, 2, 3, 4 in `hc_validate_iff_hamiltonian_cycle`;
the run accepts it and rejects the tour 1, 3, 2, 4. -/
theorem hc_validate_iff_hamiltonian_cycle_witness :
    (IsMatrix cycle4 4 ∧ InRange 0 4 [1, 2, 3, 4]) ∧
    (verdict (hc_validate [1, 2, 3, 4] 4 cycle4 4 true) = some true ∧
      verdict (hc_validate [1, 3, 2, 4] 4 cycle4 4 true) = some false) ∧
    ∃ o, hc_validate [1, 2, 3, 4] ((4 : Nat) : Int) cycle4 ((4 : Nat) : Int) true = .ok o ∧
      (o.valid = true ↔
        (([1, 2, 3, 4] : List Int).Perm (nodes 4) ∧
          (∀ i, i + 1 < 4 → adjacent cycle4 (nth [1, 2, 3, 4] i) (nth [1, 2, 3, 4] (i + 1)) = true) ∧
          adjacent cycle4 (nth [1, 2, 3, 4] 0) (nth [1, 2, 3, 4] (4 - 1)) = true)) :=
  ⟨⟨by unfold IsMatrix; decide, by unfold InRange; decide⟩, ⟨by decide, by decide⟩,
    hc_validate_iff_hamiltonian_cycle 4 cycle4 [1, 2, 3, 4] true (by decide)
      (by unfold IsMatrix; decide) (by decide) rfl (by unfold InRange; decide)⟩

/-- A tour in `1..n`: every `t[j]` is a natural number between 1 and `n`. -/
theorem nth_nat_of_perm {n : Nat} {t : List Int} (hl : t.length = n)
    (hin : ∀ x ∈ t, 1 ≤ x ∧ x ≤ (n : Int)) (j : Nat) (hj : j < n) :
    ∃ k : Nat, 1 ≤ k ∧ k ≤ n ∧ nth t j = (k : Int) := by
  obtain ⟨h1, h2⟩ := hin _ (nth_mem t j (by omega))
  obtain ⟨k, hk⟩ := Int.eq_ofNat_of_zero_le (by omega : (0 : Int) ≤ nth t j)
  rw [hk] at h1 h2
  exact ⟨k, by exact_mod_cast h1, by exact_mod_cast h2, hk⟩

/-- C2 (amended): over a complete graph on the nodes `1..n`, with `n ≥ 2`, or
with `n = 1` and a self-loop at node 1, `hc_validate` returns true on every
permutation of `1..n`. -/
theorem complete_graph_accepts (n : Nat) (g : List (List Int)) (t : List Int) (verbose : Bool)
    (hn : 1 ≤ n) (hg : IsMatrix g n)
    (hcomplete : ∀ u v : Nat, 1 ≤ u → u ≤ n → 1 ≤ v → v ≤ n → u ≠ v →
      readGraph g (u : Int) (v : Int) = some 1)
    (hself : n = 1 → adjacent g 1 1 = true)
    (hperm : t.Perm (nodes n)) :
    ∃ o, hc_validate t (n : Int) g (n : Int) verbose = .ok o ∧ o.valid = true := by
  have hl : t.length = n := by rw [hperm.length_eq, nodes_length]
  obtain ⟨hnd, hin⟩ := (perm_nodes_iff n t hl).1 hperm
  have hr : InRange 0 n t := fun x hx => ⟨by have := (hin x hx).1; omega, (hin x hx).2⟩
  obtain ⟨o, ho, hrep⟩ := hc_validate_run g t n verbose hn hg hl hr
  refine ⟨o, ho, ?_⟩
  have hval : o.valid = (report g t n verbose).1 := congrArg Prod.fst hrep
  rw [hval, report_valid_iff, gap_start_eq_none_iff hg t hr, hl]
  have hadj : ∀ i j, i < n → j < n → i ≠ j → adjacent g (nth t i) (nth t j) = true := by
    intro i j hi hj hij
    obtain ⟨u, hu1, hu2, hue⟩ := nth_nat_of_perm hl hin i hi
    obtain ⟨w, hw1, hw2, hwe⟩ := nth_nat_of_perm hl hin j hj
    have hne : u ≠ w := by
      intro h
      apply hij
      apply nth_inj t hnd i j (by omega) (by omega)
      rw [hue, hwe, h]
    simp [adjacent, hue, hwe, hcomplete u w hu1 hu2 hw1 hw2 hne]
  refine ⟨fun i hi => hadj i (i + 1) (by omega) hi (by omega), ?_, ?_⟩
  · rw [(card_toFinset_eq_length_iff t).2 hnd, hl]
  · by_cases h1 : n = 1
    · obtain ⟨u, hu1, hu2, hue⟩ := nth_nat_of_perm hl hin 0 (by omega)
      have : u = 1 := by omega
      subst this
      subst h1
      rw [hue]
      exact hself rfl
    · exact hadj 0 (n - 1) (by omega) (by omega) (by omega)

/-- The complete graph on the nodes 1, 2, 3 accepts the tour 2, 3, 1 by
`complete_graph_accepts`. -/
theorem complete_graph_accepts_witness :
    ∃ o, hc_validate [2, 3, 1] ((3 : Nat) : Int)
        [[0, 0, 0, 0], [0, 0, 1, 1], [0, 1, 0, 1], [0, 1, 1, 0]] ((3 : Nat) : Int) false = .ok o ∧
      o.valid = true :=
  complete_graph_accepts 3 [[0, 0, 0, 0], [0, 0, 1, 1], [0, 1, 0, 1], [0, 1, 1, 0]] [2, 3, 1]
    false (by decide) (by unfold IsMatrix; decide)
    (by intro u v h1 h2 h3 h4 h5; interval_cases u <;> interval_cases v <;> first | decide | omega)
    (by decide) (by decide)

/-- C2 as stated fails at `n = 1`: the graph with the single node 1 and no
self-loop is complete (there are no two distinct nodes), `[1]` is a permutation
of `1..1`, and `hc_validate` returns false, the closing edge `g[1][1]` being zero. -/
theorem complete_graph_single_node_rejected :
    IsMatrix single0 1 ∧
      (∀ u v : Nat, 1 ≤ u → u ≤ 1 → 1 ≤ v → v ≤ 1 → u ≠ v →
        readGraph single0 (u : Int) (v : Int) = some 1) ∧
      ([1] : List Int).Perm (nodes 1) ∧
      hc_validate [1] 1 single0 1 true =
        .ok { valid := false
              out := [Msg.validPath, Msg.firstNotLast]
              reads := [Access.tour 0, Access.tour 0, Access.tour 0, Access.graph 1 1] } :=
  ⟨by unfold IsMatrix; decide, by intro u v h1 h2 h3 h4 h5; omega, by decide, rfl⟩

/-- What an accepting run over a full matrix establishes. -/
theorem accepted_facts (g : List (List Int)) (t : List Int) (n : Nat) (v : Bool)
    (hg : IsMatrix g n) (hl : t.length = n) (o : Outcome)
    (h : hc_validate t (n : Int) g (n : Int) v = .ok o) (hv : o.valid = true) :
    1 ≤ n ∧ InRange 0 n t ∧ t.Nodup ∧
      (∀ i, i + 1 < n → adjacent g (nth t i) (nth t (i + 1)) = true) ∧
      adjacent g (nth t 0) (nth t (n - 1)) = true := by
  obtain ⟨hn, hr⟩ := accepted_inRange g t n v hl o h hv
  obtain ⟨o1, ho1, hrep⟩ := hc_validate_run g t n v hn hg hl hr
  have ho : o1 = o := by
    rw [ho1] at h
    injection h
  subst ho
  have hval : o1.valid = (report g t n v).1 := congrArg Prod.fst hrep
  rw [hval, report_valid_iff, gap_start_eq_none_iff hg t hr, hl] at hv
  obtain ⟨hchain, hcard, hclose⟩ := hv
  refine ⟨hn, hr, ?_, hchain, hclose⟩
  rw [← card_toFinset_eq_length_iff, hl]
  exact_mod_cast hcard

theorem adjacent_true_ne_zero (g : List (List Int)) (a b : Int)
    (h : adjacent g a b = true) : readGraph g a b ≠ some 0 := by
  intro h0
  simp [adjacent, h0] at h

/-- C3 (amended): when `hc_validate` accepts a tour of length `n` over an
`(n+1) × (n+1)` matrix, clearing both entries of an edge the tour uses makes it
return false.  For a pair of consecutive nodes `t[i], t[i+1]` the line printed
is "No edge between t[i] and t[i+1]"; for the closing pair `t[n-1], t[0]` the
lines are "Valid Hamiltoninan Path" and "First node does not connect with last
node of tour", except for `n = 2`, where the closing pair is the consecutive
pair and the missing edge `t[0], t[1]` is printed. -/
theorem missing_edge_rejected (n : Nat) (g : List (List Int)) (t : List Int) (verbose : Bool)
    (hg : IsMatrix g n) (hl : t.length = n)
    (hacc : ∃ o, hc_validate t (n : Int) g (n : Int) verbose = .ok o ∧ o.valid = true) :
    (∀ i, i + 1 < n →
      ∃ o, hc_validate t (n : Int) (clearEdge g (nth t i) (nth t (i + 1))) (n : Int) verbose
          = .ok o ∧ o.valid = false ∧
        o.out = say verbose (Msg.noEdge (nth t i) (nth t (i + 1)))) ∧
    (∃ o, hc_validate t (n : Int) (clearEdge g (nth t (n - 1)) (nth t 0)) (n : Int) verbose
          = .ok o ∧ o.valid = false ∧
        o.out = if n = 2 then say verbose (Msg.noEdge (nth t 0) (nth t 1))
          else say verbose Msg.validPath ++ say verbose Msg.firstNotLast) := by
  obtain ⟨o, ho, hv⟩ := hacc
  obtain ⟨hn, hr, hnd, hchain, hclose⟩ := accepted_facts g t n verbose hg hl o ho hv
  have hnat : ∀ j, j < n → ∃ k : Nat, k ≤ n ∧ nth t j = (k : Int) := by
    intro j hj
    obtain ⟨h0, h1⟩ := hr _ (nth_mem t j (by omega))
    obtain ⟨k, hk⟩ := Int.eq_ofNat_of_zero_le h0
    exact ⟨k, by rw [hk] at h1; exact_mod_cast h1, hk⟩
  have hne : ∀ y ∈ t, y ≠ -1 := fun y hy => by have := (hr y hy).1; omega
  have hinj : ∀ i j, i < n → j < n → nth t i = nth t j → i = j :=
    fun i j hi hj h => nth_inj t hnd i j (by omega) (by omega) h
  constructor
  · intro i hi
    obtain ⟨a, ha, hae⟩ := hnat i (by omega)
    obtain ⟨b, hb, hbe⟩ := hnat (i + 1) hi
    obtain ⟨m1, r1⟩ := hg.clearEdge ha hb
    rw [← hae, ← hbe] at m1 r1
    obtain ⟨o1, ho1, hrep⟩ := hc_validate_run _ t n verbose hn m1 hl hr
    have hgap : gap (clearEdge g (nth t i) (nth t (i + 1))) (-1) t
        = some (nth t i, nth t (i + 1)) := by
      refine gap_start_first _ t i hne (by omega) (fun j hj => ?_) ?_
      · rw [r1]
        have hc1 : ¬ (nth t j = nth t i ∧ nth t (j + 1) = nth t (i + 1)) := by
          rintro ⟨h, _⟩
          have := hinj j i (by omega) (by omega) h
          omega
        have hc2 : ¬ (nth t j = nth t (i + 1) ∧ nth t (j + 1) = nth t i) := by
          rintro ⟨h, _⟩
          have := hinj j (i + 1) (by omega) (by omega) h
          omega
        simp only [hc1, hc2, or_self, if_false]
        exact adjacent_true_ne_zero g _ _ (hchain j (by omega))
      · rw [r1]
        simp
    refine ⟨o1, ho1, ?_, ?_⟩
    · have := congrArg Prod.fst hrep
      simpa [report, hgap] using this
    · have := congrArg Prod.snd hrep
      simpa [report, hgap] using this
  · obtain ⟨a, ha, hae⟩ := hnat (n - 1) (by omega)
    obtain ⟨b, hb, hbe⟩ := hnat 0 (by omega)
    obtain ⟨m1, r1⟩ := hg.clearEdge ha hb
    rw [← hae, ← hbe] at m1 r1
    obtain ⟨o1, ho1, hrep⟩ := hc_validate_run _ t n verbose hn m1 hl hr
    by_cases h2 : n = 2
    · subst h2
      have hgap : gap (clearEdge g (nth t (2 - 1)) (nth t 0)) (-1) t
          = some (nth t 0, nth t (0 + 1)) := by
        refine gap_start_first _ t 0 hne (by omega) (fun j hj => absurd hj (Nat.not_lt_zero _)) ?_
        rw [r1]
        simp
      refine ⟨o1, ho1, ?_, ?_⟩
      · have := congrArg Prod.fst hrep
        simpa [report, hgap] using this
      · have := congrArg Prod.snd hrep
        simpa [report, hgap] using this
    · have hgap : gap (clearEdge g (nth t (n - 1)) (nth t 0)) (-1) t = none := by
        rw [gap_start_eq_none_iff m1 t hr, hl]
        intro j hj
        have hc1 : ¬ (nth t j = nth t (n - 1) ∧ nth t (j + 1) = nth t 0) := by
          rintro ⟨_, h⟩
          have := hinj (j + 1) 0 (by omega) (by omega) h
          omega
        have hc2 : ¬ (nth t j = nth t 0 ∧ nth t (j + 1) = nth t (n - 1)) := by
          rintro ⟨h, h1⟩
          have := hinj j 0 (by omega) (by omega) h
          have := hinj (j + 1) (n - 1) (by omega) (by omega) h1
          omega
        have := hchain j hj
        simpa [adjacent, r1, hc1, hc2] using this
      have hcard : (t.toFinset.card : Int) = (n : Int) := by
        rw [(card_toFinset_eq_length_iff t).2 hnd, hl]
      have hcl : adjacent (clearEdge g (nth t (n - 1)) (nth t 0)) (nth t 0) (nth t (n - 1))
          = false := by
        simp [adjacent, r1]
      refine ⟨o1, ho1, ?_, ?_⟩
      · have := congrArg Prod.fst hrep
        simpa [report, hgap, hcard, hcl] using this
      · have := congrArg Prod.snd hrep
        simpa [report, hgap, hcard, hcl, h2] using this

/-- The 4-cycle and its tour 1, 2, 3, 4 in `missing_edge_rejected`. -/
theorem missing_edge_rejected_witness :
    (∀ i, i + 1 < 4 →
      ∃ o, hc_validate [1, 2, 3, 4] ((4 : Nat) : Int)
          (clearEdge cycle4 (nth [1, 2, 3, 4] i) (nth [1, 2, 3, 4] (i + 1))) ((4 : Nat) : Int) true
          = .ok o ∧ o.valid = false ∧
        o.out = say true (Msg.noEdge (nth [1, 2, 3, 4] i) (nth [1, 2, 3, 4] (i + 1)))) ∧
    (∃ o, hc_validate [1, 2, 3, 4] ((4 : Nat) : Int)
          (clearEdge cycle4 (nth [1, 2, 3, 4] (4 - 1)) (nth [1, 2, 3, 4] 0)) ((4 : Nat) : Int) true
          = .ok o ∧ o.valid = false ∧
        o.out = if 4 = 2 then say true (Msg.noEdge (nth [1, 2, 3, 4] 0) (nth [1, 2, 3, 4] 1))
          else say true Msg.validPath ++ say true Msg.firstNotLast) :=
  missing_edge_rejected 4 cycle4 [1, 2, 3, 4] true (by unfold IsMatrix; decide) rfl
    ⟨_, rfl, rfl⟩

/-- C3 as stated fails for the closing pair: the 4-cycle accepts 1, 2, 3, 4;
with the entries of the closing edge (4, 1) cleared the run prints the closure
line, not "No edge between 4 and 1". -/
theorem closing_edge_cleared_reports_closure :
    verdict (hc_validate [1, 2, 3, 4] 4 cycle4 4 true) = some true ∧
      hc_validate [1, 2, 3, 4] 4 (clearEdge cycle4 4 1) 4 true =
        .ok { valid := false
              out := [Msg.validPath, Msg.firstNotLast]
              reads := [Access.tour 0, Access.tour 1, Access.graph 1 2, Access.tour 2,
                Access.graph 2 3, Access.tour 3, Access.graph 3 4, Access.tour 0,
                Access.tour 3, Access.graph 1 4] } :=
  ⟨by decide, rfl⟩

/-- C4: for every `n ≥ 2`, every `(n+1) × (n+1)` matrix and every tour of
length `n` with entries in `1..n` in which some node occurs at least twice,
`hc_validate` returns false, whatever the edges. -/
theorem repeated_node_rejected (n : Nat) (g : List (List Int)) (t : List Int) (verbose : Bool)
    (hn : 2 ≤ n) (hg : IsMatrix g n) (hl : t.length = n) (hr : InRange 1 n t)
    (hdup : ∃ x, 2 ≤ t.count x) :
    ∃ o, hc_validate t (n : Int) g (n : Int) verbose = .ok o ∧ o.valid = false := by
  have hr0 : InRange 0 n t := fun x hx => ⟨by have := (hr x hx).1; omega, (hr x hx).2⟩
  obtain ⟨o, ho, hrep⟩ := hc_validate_run g t n verbose (by omega) hg hl hr0
  refine ⟨o, ho, ?_⟩
  cases hv : o.valid with
  | false => rfl
  | true =>
    exfalso
    have hval : o.valid = (report g t n verbose).1 := congrArg Prod.fst hrep
    rw [hval, report_valid_iff] at hv
    have hnd : t.Nodup := by
      rw [← card_toFinset_eq_length_iff, hl]
      exact_mod_cast hv.2.1
    obtain ⟨x, hx⟩ := hdup
    have := List.nodup_iff_count_le_one.1 hnd x
    omega

/-- The tour 1, 1, 2, 3 over the complete graph on four nodes in `repeated_node_rejected`. -/
theorem repeated_node_rejected_witness :
    ∃ o, hc_validate [1, 1, 2, 3] ((4 : Nat) : Int)
        [[1, 1, 1, 1, 1], [1, 1, 1, 1, 1], [1, 1, 1, 1, 1], [1, 1, 1, 1, 1], [1, 1, 1, 1, 1]]
        ((4 : Nat) : Int) true = .ok o ∧ o.valid = false :=
  repeated_node_rejected 4
    [[1, 1, 1, 1, 1], [1, 1, 1, 1, 1], [1, 1, 1, 1, 1], [1, 1, 1, 1, 1], [1, 1, 1, 1, 1]]
    [1, 1, 2, 3] true (by decide) (by unfold IsMatrix; decide) rfl (by unfold InRange; decide)
    ⟨1, by decide⟩

/-- C5: over an `(n+1) × (n+1)` matrix, a permutation of `1..n` whose
consecutive nodes are all connected but whose first and last node are not is
rejected, and what is printed is "Valid Hamiltoninan Path" followed by "First
node does not connect with last node of tour": the closure failure, no
missing-edge line and no coverage line. -/
theorem open_path_rejected (n : Nat) (g : List (List Int)) (t : List Int) (verbose : Bool)
    (hn : 1 ≤ n) (hg : IsMatrix g n) (hperm : t.Perm (nodes n))
    (hpath : ∀ i, i + 1 < n → adjacent g (nth t i) (nth t (i + 1)) = true)
    (hopen : adjacent g (nth t 0) (nth t (n - 1)) = false) :
    ∃ o, hc_validate t (n : Int) g (n : Int) verbose = .ok o ∧ o.valid = false ∧
      o.out = say verbose Msg.validPath ++ say verbose Msg.firstNotLast := by
  have hl : t.length = n := by rw [hperm.length_eq, nodes_length]
  obtain ⟨hnd, hin⟩ := (perm_nodes_iff n t hl).1 hperm
  have hr : InRange 0 n t := fun x hx => ⟨by have := (hin x hx).1; omega, (hin x hx).2⟩
  obtain ⟨o, ho, hrep⟩ := hc_validate_run g t n verbose hn hg hl hr
  have hgap : gap g (-1) t = none := by
    rw [gap_start_eq_none_iff hg t hr, hl]
    exact hpath
  have hcard : (t.toFinset.card : Int) = (n : Int) := by
    rw [(card_toFinset_eq_length_iff t).2 hnd, hl]
  refine ⟨o, ho, ?_, ?_⟩
  · have := congrArg Prod.fst hrep
    simpa [report, hgap, hcard, hopen] using this
  · have := congrArg Prod.snd hrep
    simpa [report, hgap, hcard, hopen] using this

/-- The Hamiltonian path 1, 2, 3, 4 of the path graph in `open_path_rejected`. -/
theorem open_path_rejected_witness :
    ∃ o, hc_validate [1, 2, 3, 4] ((4 : Nat) : Int) path4 ((4 : Nat) : Int) true = .ok o ∧
      o.valid = false ∧ o.out = say true Msg.validPath ++ say true Msg.firstNotLast :=
  open_path_rejected 4 path4 [1, 2, 3, 4] true (by decide) (by unfold IsMatrix; decide)
    (by decide) (by intro i hi; have : i < 3 := by omega
                    interval_cases i <;> decide) (by decide)

/-- C6: when `tour_node_count` differs from `node_count`, `hc_validate` returns
false with the size-mismatch line and reads no entry of the tour or of the
matrix, whatever they are. -/
theorem length_mismatch_rejected (tour : List Int) (tour_node_count : Int)
    (graph : List (List Int)) (node_count : Int) (verbose : Bool)
    (h : tour_node_count ≠ node_count) :
    hc_validate tour tour_node_count graph node_count verbose =
      .ok { valid := false, out := say verbose Msg.sizeMismatch, reads := [] } := by
  simp [hc_validate, h]

/-- The tour 1, 2, 3 against the 4-node cycle in `length_mismatch_rejected`. -/
theorem length_mismatch_rejected_witness :
    hc_validate [1, 2, 3] 3 cycle4 4 true =
      .ok { valid := false, out := say true Msg.sizeMismatch, reads := [] } :=
  length_mismatch_rejected [1, 2, 3] 3 cycle4 4 true (by decide)

/-- C7: with `node_count = 0`, `hc_validate` returns false on every tour, every
`tour_node_count` and every matrix (the empty ones included), printing the
size-mismatch line or "graph has no nodes", and reads nothing. -/
theorem empty_graph_rejected (tour : List Int) (tour_node_count : Int)
    (graph : List (List Int)) (verbose : Bool) :
    hc_validate tour tour_node_count graph 0 verbose =
      .ok { valid := false
            out := say verbose (if tour_node_count ≠ 0 then Msg.sizeMismatch else Msg.emptyGraph)
            reads := [] } := by
  by_cases h : tour_node_count = 0 <;> simp [hc_validate, h]

/-! ## Verbosity -/

theorem check_edge_quiet (g : List (List Int)) (v : Bool) (x : Int) (s : WalkState) :
    check_edge g false x (quiet s) =
      match check_edge g v x s with
      | .error f => .error f
      | .ok (b, s1) => .ok (b, quiet s1) := by
  unfold check_edge
  by_cases hp : s.previous_node = -1
  · simp [hp, quiet]
  · have hq : (quiet s).previous_node = s.previous_node := rfl
    simp only [hq, ne_eq, hp, not_false_eq_true, if_true]
    cases readGraph g s.previous_node x with
    | none => rfl
    | some e =>
      by_cases he : e = 0
      · simp [he, quiet, say]
      · simp [he, quiet]

theorem mark_visited_quiet (x : Int) (s : WalkState) :
    mark_visited x (quiet s) =
      match mark_visited x s with
      | .error f => .error f
      | .ok s1 => .ok (quiet s1) := by
  unfold mark_visited
  have hq : (quiet s).visited_nodes = s.visited_nodes := rfl
  rw [hq]
  cases readAt s.visited_nodes x with
  | none => rfl
  | some seen =>
    by_cases hs : seen = 0
    · simp only [hs, if_true]
      cases writeAt s.visited_nodes x 1 with
      | none => rfl
      | some vs => rfl
    · simp only [hs, if_false]
      rfl

theorem walk_quiet (t : List Int) (g : List (List Int)) (v : Bool) :
    ∀ (iters : Nat) (pos : Int) (s : WalkState),
      walk t g false iters pos (quiet s) =
        match walk t g v iters pos s with
        | .error f => .error f
        | .ok s1 => .ok (quiet s1) := by
  intro iters
  induction iters with
  | zero => intro pos s; rfl
  | succ k ih =>
    intro pos s
    simp only [walk]
    cases readAt t pos with
    | none => rfl
    | some x =>
      have hq : ({ quiet s with reads := (quiet s).reads ++ [Access.tour pos] } : WalkState)
          = quiet { s with reads := s.reads ++ [Access.tour pos] } := rfl
      simp only [hq, check_edge_quiet g v x]
      cases check_edge g v x { s with reads := s.reads ++ [Access.tour pos] } with
      | error f => rfl
      | ok r =>
        obtain ⟨b, s1⟩ := r
        cases b with
        | false => rfl
        | true =>
          simp only [mark_visited_quiet]
          cases mark_visited x s1 with
          | error f => rfl
          | ok s2 => exact ih (pos + 1) s2

theorem finish_quiet (t : List Int) (g : List (List Int)) (n : Int) (v : Bool)
    (s : WalkState) :
    verdict (finish t g n false (quiet s)) = verdict (finish t g n v s) := by
  unfold finish
  have h1 : (quiet s).valid = s.valid := rfl
  have h2 : (quiet s).visited_node_count = s.visited_node_count := rfl
  simp only [h1, h2]
  by_cases hv : s.valid = true
  · by_cases hc : s.visited_node_count = n
    · simp only [hv, hc, ne_eq, not_true_eq_false, and_false, if_false, if_true]
      cases readAt t 0 with
      | none => rfl
      | some a =>
        cases readAt t (n - 1) with
        | none => rfl
        | some b =>
          dsimp only
          cases readGraph g a b with
          | none => rfl
          | some e =>
            by_cases he : e = 0
            · simp [he, verdict]
            · simp [he, verdict]
    · simp [hv, hc, verdict]
  · simp [hv, verdict]

/-- The verdict of `hc_validate` is that of the run with `verbose` off. -/
theorem verdict_quiet (t : List Int) (tn : Int) (g : List (List Int)) (n : Int) (v : Bool) :
    verdict (hc_validate t tn g n v) = verdict (hc_validate t tn g n false) := by
  unfold hc_validate
  by_cases h1 : tn = n
  · by_cases h2 : n = 0
    · simp [h1, h2, verdict]
    · simp only [h1, ne_eq, not_true_eq_false, if_false, h2]
      have hw := walk_quiet t g v n.toNat 0 (walkInit n)
      have hq : quiet (walkInit n) = walkInit n := rfl
      rw [hq] at hw
      rw [hw]
      cases walk t g v n.toNat 0 (walkInit n) with
      | error f => rfl
      | ok s => exact (finish_quiet t g n v s).symm
  · simp [h1, verdict]

/-- C8: for every tour, counts and matrix, `hc_validate` with `verbose` on and
with `verbose` off return the same boolean (and fault on the same inputs). -/
theorem verbose_keeps_verdict (tour : List Int) (tour_node_count : Int)
    (graph : List (List Int)) (node_count : Int) :
    verdict (hc_validate tour tour_node_count graph node_count true) =
      verdict (hc_validate tour tour_node_count graph node_count false) :=
  verdict_quiet tour tour_node_count graph node_count true

/-! ## The edge loop of read_graph -/

theorem readAt_some_bounds {α : Type} (xs : List α) (i : Int) (x : α)
    (h : readAt xs i = some x) : 0 ≤ i ∧ i.toNat < xs.length ∧ x ∈ xs := by
  unfold readAt at h
  split at h
  · rename_i h0
    exact ⟨h0, (List.get?_eq_some.1 h).1, List.get?_mem h⟩
  · exact Option.noConfusion h

theorem writeGraph_some_bounds {g : List (List Int)} {n : Nat} (hg : IsMatrix g n)
    (u v x : Int) (g1 : List (List Int)) (h : writeGraph g u v x = some g1) :
    (0 ≤ u ∧ u ≤ (n : Int)) ∧ (0 ≤ v ∧ v ≤ (n : Int)) := by
  unfold writeGraph at h
  split at h
  · exact Option.noConfusion h
  · rename_i row hrow
    obtain ⟨hu0, hul, hmem⟩ := readAt_some_bounds g u row hrow
    have hrl := hg.2 row hmem
    rw [hg.1] at hul
    split at h
    · exact Option.noConfusion h
    · rename_i row1 hw
      unfold writeAt at hw
      split at hw
      · rename_i hv
        rw [hrl] at hv
        exact ⟨⟨hu0, by omega⟩, ⟨hv.1, by omega⟩⟩
      · exact Option.noConfusion hw

theorem alloc_graph_isMatrix (n : Nat) :
    IsMatrix (alloc_graph (n : Int)) n ∧
      ∀ c d : Nat, c ≤ n → d ≤ n → readGraph (alloc_graph (n : Int)) (c : Int) (d : Int) = some 0 := by
  have h : ((n : Int) + 1).toNat = n + 1 := by omega
  refine ⟨⟨by simp [alloc_graph, h], ?_⟩, ?_⟩
  · intro row hrow
    simp only [alloc_graph, h] at hrow
    rw [List.eq_of_mem_replicate hrow]
    simp
  · intro c d hc hd
    have hc1 : c < n + 1 := by omega
    have hd1 : d < n + 1 := by omega
    simp [readGraph_natCast, alloc_graph, h, List.getElem?_replicate, hc1, hd1]

theorem listed_cons_stop (l : List Char) (ls : List (List Char)) (h : edge_u l = -1) :
    listed (l :: ls) = [] := by
  simp [listed, List.takeWhile, h]

theorem listed_cons_go (l : List Char) (ls : List (List Char)) (h : ¬ edge_u l = -1) :
    listed (l :: ls) = l :: listed ls := by
  simp [listed, List.takeWhile, h]

/-- The edge loop on a full matrix, when the recorded endpoints are within
`n`: it returns, the matrix stays full, an entry listed by a line before the
sentinel is 1, every other entry is unchanged, and `edge_count` grows by the
number of recording lines. -/
theorem read_edges_spec (n : Nat) :
    ∀ (lines : List (List Char)) (g : List (List Int)) (e : Int), IsMatrix g n →
      (∀ l ∈ listed lines, 0 < edge_u l → 0 < edge_v l →
        edge_u l ≤ (n : Int) ∧ edge_v l ≤ (n : Int)) →
      ∃ g1 e1, read_edges lines g e = .ok (g1, e1) ∧ IsMatrix g1 n ∧
        (∀ c d : Int, ((∃ l ∈ listed lines, lists_edge l c d) → readGraph g1 c d = some 1) ∧
          ((¬ ∃ l ∈ listed lines, lists_edge l c d) → readGraph g1 c d = readGraph g c d)) ∧
        e1 = e + (((listed lines).filter records).length : Int) := by
  intro lines
  induction lines with
  | nil =>
    intro g e hg _
    exact ⟨g, e, rfl, hg, fun c d => ⟨fun ⟨l, hl, _⟩ => absurd hl (by simp [listed]),
      fun _ => rfl⟩, by simp [listed]⟩
  | cons l ls ih =>
    intro g e hg hb
    by_cases hstop : edge_u l = -1
    · refine ⟨g, e, by simp [read_edges, hstop], hg, fun c d => ⟨?_, fun _ => rfl⟩, ?_⟩
      · rintro ⟨l1, hl1, _⟩
        rw [listed_cons_stop l ls hstop] at hl1
        exact absurd hl1 (List.not_mem_nil _)
      · simp [listed_cons_stop l ls hstop]
    · have hlist := listed_cons_go l ls hstop
      have hb1 : ∀ l1 ∈ listed ls, 0 < edge_u l1 → 0 < edge_v l1 →
          edge_u l1 ≤ (n : Int) ∧ edge_v l1 ≤ (n : Int) := by
        intro l1 hl1
        exact hb l1 (by rw [hlist]; exact List.mem_cons_of_mem _ hl1)
      by_cases hrec : edge_u l > 0 ∧ edge_v l > 0
      · obtain ⟨hun, hvn⟩ := hb l (by rw [hlist]; exact List.mem_cons_self _ _) hrec.1 hrec.2
        obtain ⟨a, ha⟩ := Int.eq_ofNat_of_zero_le (le_of_lt hrec.1)
        obtain ⟨b, hbv⟩ := Int.eq_ofNat_of_zero_le (le_of_lt hrec.2)
        have han : a ≤ n := by rw [ha] at hun; exact_mod_cast hun
        have hbn : b ≤ n := by rw [hbv] at hvn; exact_mod_cast hvn
        obtain ⟨g1, hw1, m1, r1⟩ := hg.write han hbn 1
        obtain ⟨g2, hw2, m2, r2⟩ := m1.write hbn han 1
        obtain ⟨g3, e3, hrun, m3, r3, hcount⟩ := ih g2 (e + 1) m2 hb1
        refine ⟨g3, e3, ?_, m3, fun c d => ⟨?_, ?_⟩, ?_⟩
        · simp only [read_edges, hstop, if_false, hrec, and_self, if_true, ha, hbv, hw1, hw2]
          rw [ha, hbv] at hrec
          simp only [hrec, and_self, if_true]
          exact hrun
        · rintro ⟨l1, hl1, hle⟩
          by_cases hrest : ∃ l2 ∈ listed ls, lists_edge l2 c d
          · exact (r3 c d).1 hrest
          · rw [(r3 c d).2 hrest, r2, r1]
            rw [hlist] at hl1
            rcases List.mem_cons.1 hl1 with rfl | hl1
            · obtain ⟨_, _, h | h⟩ := hle
              · rw [ha, hbv] at h
                by_cases hc : c = (b : Int) ∧ d = (a : Int)
                · simp [hc]
                · simp [hc, h.1.symm, h.2.symm]
              · rw [ha, hbv] at h
                simp [h.1.symm, h.2.symm]
            · exact absurd ⟨l1, hl1, hle⟩ hrest
        · intro hno
          have hrest : ¬ ∃ l2 ∈ listed ls, lists_edge l2 c d := by
            rintro ⟨l2, hl2, hle⟩
            exact hno ⟨l2, by rw [hlist]; exact List.mem_cons_of_mem _ hl2, hle⟩
          have hl : ¬ lists_edge l c d := fun h =>
            hno ⟨l, by rw [hlist]; exact List.mem_cons_self _ _, h⟩
          rw [(r3 c d).2 hrest, r2, r1]
          have h1 : ¬ (c = (b : Int) ∧ d = (a : Int)) := by
            rintro ⟨hc, hd⟩
            exact hl ⟨hrec.1, hrec.2, Or.inr ⟨by rw [ha, hd], by rw [hbv, hc]⟩⟩
          have h2 : ¬ (c = (a : Int) ∧ d = (b : Int)) := by
            rintro ⟨hc, hd⟩
            exact hl ⟨hrec.1, hrec.2, Or.inl ⟨by rw [ha, hc], by rw [hbv, hd]⟩⟩
          simp [h1, h2]
        · rw [hcount, hlist]
          have : records l = true := by simpa [records] using hrec
          rw [List.filter_cons_of_pos this]
          simp only [List.length_cons, Nat.cast_add, Nat.cast_one]
          omega
      · obtain ⟨g3, e3, hrun, m3, r3, hcount⟩ := ih g e hg hb1
        have hl : ∀ c d, ¬ lists_edge l c d := fun c d h => hrec ⟨h.1, h.2.1⟩
        refine ⟨g3, e3, ?_, m3, fun c d => ⟨?_, ?_⟩, ?_⟩
        · simp only [read_edges, hstop, if_false, hrec]
          exact hrun
        · rintro ⟨l1, hl1, hle⟩
          rw [hlist] at hl1
          rcases List.mem_cons.1 hl1 with rfl | hl1
          · exact absurd hle (hl c d)
          · exact (r3 c d).1 ⟨l1, hl1, hle⟩
        · intro hno
          refine (r3 c d).2 ?_
          rintro ⟨l2, hl2, hle⟩
          exact hno ⟨l2, by rw [hlist]; exact List.mem_cons_of_mem _ hl2, hle⟩
        · rw [hcount, hlist]
          have : ¬ records l = true := by simpa [records] using hrec
          rw [List.filter_cons_of_neg this]

theorem read_edges_no_record :
    ∀ (lines : List (List Char)) (g : List (List Int)) (e : Int),
      (∀ l ∈ listed lines, ¬ (0 < edge_u l ∧ 0 < edge_v l)) →
      read_edges lines g e = .ok (g, e) := by
  intro lines
  induction lines with
  | nil => intro g e _; rfl
  | cons l ls ih =>
    intro g e h
    by_cases hstop : edge_u l = -1
    · simp [read_edges, hstop]
    · have hlist := listed_cons_go l ls hstop
      have hrec : ¬ (edge_u l > 0 ∧ edge_v l > 0) :=
        h l (by rw [hlist]; exact List.mem_cons_self _ _)
      simp only [read_edges, hstop, if_false, hrec]
      exact ih g e (fun l1 hl1 => h l1 (by rw [hlist]; exact List.mem_cons_of_mem _ hl1))

/-- When the edge loop returns, every endpoint it recorded is within the matrix. -/
theorem read_edges_ok_bound (n : Nat) :
    ∀ (lines : List (List Char)) (g : List (List Int)) (e : Int)
      (r : List (List Int) × Int), IsMatrix g n → read_edges lines g e = .ok r →
      ∀ l ∈ listed lines, 0 < edge_u l → 0 < edge_v l →
        edge_u l ≤ (n : Int) ∧ edge_v l ≤ (n : Int) := by
  intro lines
  induction lines with
  | nil => intro _ _ _ _ _ l hl; exact absurd hl (by simp [listed])
  | cons l ls ih =>
    intro g e r hg hrun l1 hl1 hu hv
    by_cases hstop : edge_u l = -1
    · rw [listed_cons_stop l ls hstop] at hl1
      exact absurd hl1 (List.not_mem_nil _)
    · rw [listed_cons_go l ls hstop] at hl1
      by_cases hrec : edge_u l > 0 ∧ edge_v l > 0
      · simp only [read_edges, hstop, if_false, hrec, and_self, if_true] at hrun
        split at hrun
        · exact Except.noConfusion hrun
        · rename_i g1 hw1
          obtain ⟨⟨_, hun⟩, ⟨_, hvn⟩⟩ := writeGraph_some_bounds hg _ _ _ g1 hw1
          obtain ⟨a, ha⟩ := Int.eq_ofNat_of_zero_le (le_of_lt hrec.1)
          obtain ⟨b, hb⟩ := Int.eq_ofNat_of_zero_le (le_of_lt hrec.2)
          obtain ⟨g1a, hw1a, m1, _⟩ := hg.write (a := a) (b := b)
            (by rw [ha] at hun; exact_mod_cast hun) (by rw [hb] at hvn; exact_mod_cast hvn) 1
          rw [← ha, ← hb, hw1] at hw1a
          injection hw1a with hw1a
          subst hw1a
          split at hrun
          · exact Except.noConfusion hrun
          · rename_i g2 hw2
            obtain ⟨g2a, hw2a, m2, _⟩ := m1.write (a := b) (b := a)
              (by rw [hb] at hvn; exact_mod_cast hvn) (by rw [ha] at hun; exact_mod_cast hun) 1
            rw [← ha, ← hb, hw2] at hw2a
            injection hw2a with hw2a
            subst hw2a
            rcases List.mem_cons.1 hl1 with rfl | hl1
            · exact ⟨hun, hvn⟩
            · exact ih g2 (e + 1) r m2 hrun l1 hl1 hu hv
      · simp only [read_edges, hstop, if_false, hrec] at hrun
        rcases List.mem_cons.1 hl1 with rfl | hl1
        · exact absurd ⟨hu, hv⟩ hrec
        · exact ih g e r hg hrun l1 hl1 hu hv

theorem lists_edge_symm (l : List Char) (u v : Int) : lists_edge l u v ↔ lists_edge l v u := by
  unfold lists_edge
  constructor <;> rintro ⟨h1, h2, h | h⟩ <;> first | exact ⟨h1, h2, Or.inr h⟩ | exact ⟨h1, h2, Or.inl h⟩

/-- When the header of a graph text is read with `DIMENSION` `n`, leaving the
lines `edges` on the stream, and every endpoint the loop stores before it
breaks is at most `n`, `read_graph` returns a matrix with `node_count` `n` in
which, for all `u`, `v` in `0..n`, the entry `[u][v]` is 1 if and only if the
loop stored it, and 0 otherwise. -/
theorem read_graph_loop_records (text : List Char) (n : Int)
    (edges : List (List Char))
    (hhead : read_header edge_marker (stream_lines text) 0 = .ok (n, edges))
    (hbound : ∀ l ∈ listed edges, 0 < edge_u l → 0 < edge_v l → edge_u l ≤ n ∧ edge_v l ≤ n) :
    ∃ g e, read_graph (some text) = .ok { graph := g, node_count := n, edge_count := e } ∧
      ∀ u v : Int, 0 ≤ u → u ≤ n → 0 ≤ v → v ≤ n →
        (readGraph g u v = some 1 ↔ ∃ l ∈ listed edges, lists_edge l u v) ∧
        (readGraph g u v = some 1 ∨ readGraph g u v = some 0) := by
  by_cases hn : 0 ≤ n
  · obtain ⟨k, rfl⟩ := Int.eq_ofNat_of_zero_le hn
    obtain ⟨m0, z0⟩ := alloc_graph_isMatrix k
    obtain ⟨g1, e1, hrun, _, r1, _⟩ := read_edges_spec k edges (alloc_graph (k : Int)) 0 m0 hbound
    refine ⟨g1, e1, by simp only [read_graph, hhead, hrun], ?_⟩
    intro u v hu0 hun hv0 hvn
    obtain ⟨a, rfl⟩ := Int.eq_ofNat_of_zero_le hu0
    obtain ⟨b, rfl⟩ := Int.eq_ofNat_of_zero_le hv0
    have hz := z0 a b (by exact_mod_cast hun) (by exact_mod_cast hvn)
    by_cases hex : ∃ l ∈ listed edges, lists_edge l (a : Int) (b : Int)
    · exact ⟨⟨fun _ => hex, fun _ => (r1 _ _).1 hex⟩, Or.inl ((r1 _ _).1 hex)⟩
    · have h0 : readGraph g1 (a : Int) (b : Int) = some 0 := by rw [(r1 _ _).2 hex, hz]
      refine ⟨⟨fun h => ?_, fun h => absurd h hex⟩, Or.inr h0⟩
      rw [h0] at h
      exact absurd (Option.some.inj h) (by decide)
  · have hno : ∀ l ∈ listed edges, ¬ (0 < edge_u l ∧ 0 < edge_v l) := by
      rintro l hl ⟨h1, h2⟩
      have := (hbound l hl h1 h2).1
      omega
    refine ⟨alloc_graph n, 0,
      by simp only [read_graph, hhead, read_edges_no_record edges _ 0 hno], ?_⟩
    intro u v hu0 hun
    omega

/-- C10: whenever `read_graph` returns, on a file that could not be opened or
on any text, the matrix it returns has `[u][v]` equal to `[v][u]` for all `u`,
`v` in `0..node_count`. -/
theorem read_graph_symmetric (file : Option (List Char)) (r : ParsedGraph)
    (h : read_graph file = .ok r) (u v : Int)
    (hu0 : 0 ≤ u) (hun : u ≤ r.node_count) (hv0 : 0 ≤ v) (hvn : v ≤ r.node_count) :
    readGraph r.graph u v = readGraph r.graph v u := by
  cases file with
  | none =>
    simp only [read_graph] at h
    injection h with h
    subst h
    simp [readGraph, readAt]
  | some text =>
    simp only [read_graph] at h
    split at h
    · exact Except.noConfusion h
    · rename_i n edges hhead
      split at h
      · exact Except.noConfusion h
      · rename_i g e hrun
        injection h with h
        subst h
        simp only at hun hvn ⊢
        obtain ⟨k, rfl⟩ := Int.eq_ofNat_of_zero_le (le_trans hu0 hun)
        obtain ⟨m0, z0⟩ := alloc_graph_isMatrix k
        have hbound := read_edges_ok_bound k edges _ 0 (g, e) m0 hrun
        obtain ⟨g1, e1, hrun1, _, r1, _⟩ :=
          read_edges_spec k edges (alloc_graph (k : Int)) 0 m0 hbound
        rw [hrun] at hrun1
        injection hrun1 with hrun1
        injection hrun1 with hg he
        subst hg
        obtain ⟨a, rfl⟩ := Int.eq_ofNat_of_zero_le hu0
        obtain ⟨b, rfl⟩ := Int.eq_ofNat_of_zero_le hv0
        have hzab := z0 a b (by exact_mod_cast hun) (by exact_mod_cast hvn)
        have hzba := z0 b a (by exact_mod_cast hvn) (by exact_mod_cast hun)
        by_cases hex : ∃ l ∈ listed edges, lists_edge l (a : Int) (b : Int)
        · have hex2 : ∃ l ∈ listed edges, lists_edge l (b : Int) (a : Int) := by
            obtain ⟨l, hl, hle⟩ := hex
            exact ⟨l, hl, (lists_edge_symm l _ _).1 hle⟩
          rw [(r1 _ _).1 hex, (r1 _ _).1 hex2]
        · have hex2 : ¬ ∃ l ∈ listed edges, lists_edge l (b : Int) (a : Int) := by
            rintro ⟨l, hl, hle⟩
            exact hex ⟨l, hl, (lists_edge_symm l _ _).1 hle⟩
          rw [(r1 _ _).2 hex, (r1 _ _).2 hex2, hzab, hzba]

/-- The file `twoNodes` in `read_graph_symmetric`, at the entries (1, 2) and (2, 1). -/
theorem read_graph_symmetric_witness :
    read_graph (some twoNodes) =
        .ok { graph := [[0, 0, 0], [0, 0, 1], [0, 1, 0]], node_count := 2, edge_count := 1 } ∧
      readGraph [[0, 0, 0], [0, 0, 1], [0, 1, 0]] 1 2 =
        readGraph [[0, 0, 0], [0, 0, 1], [0, 1, 0]] 2 1 :=
  ⟨by rfl, read_graph_symmetric (some twoNodes)
    { graph := [[0, 0, 0], [0, 0, 1], [0, 1, 0]], node_count := 2, edge_count := 1 }
    (by rfl) 1 2 (by decide) (by decide) (by decide) (by decide)⟩

/-! ## Row 0, column 0 and the edge count -/

/-- When `read_graph` returns with a `node_count` of `k ≥ 0`, an entry within
`0..k` is 1 if a line before the sentinel lists it and 0 otherwise. -/
theorem read_graph_entries (text : List Char) (r : ParsedGraph)
    (h : read_graph (some text) = .ok r) (k : Nat) (hk : r.node_count = (k : Int)) :
    ∀ c d : Nat, c ≤ k → d ≤ k →
      ((∃ l ∈ listed (edge_section text), lists_edge l (c : Int) (d : Int)) →
        readGraph r.graph (c : Int) (d : Int) = some 1) ∧
      ((¬ ∃ l ∈ listed (edge_section text), lists_edge l (c : Int) (d : Int)) →
        readGraph r.graph (c : Int) (d : Int) = some 0) := by
  simp only [read_graph] at h
  split at h
  · exact Except.noConfusion h
  · rename_i n edges hhead
    split at h
    · exact Except.noConfusion h
    · rename_i g e hrun
      injection h with h
      subst h
      simp only at hk
      subst hk
      have hsec : edge_section text = edges := by simp only [edge_section, hhead]
      rw [hsec]
      obtain ⟨m0, z0⟩ := alloc_graph_isMatrix k
      have hbound := read_edges_ok_bound k edges _ 0 (g, e) m0 hrun
      obtain ⟨g1, e1, hrun1, _, r1, _⟩ :=
        read_edges_spec k edges (alloc_graph (k : Int)) 0 m0 hbound
      rw [hrun] at hrun1
      injection hrun1 with hrun1
      injection hrun1 with hg he
      subst hg
      intro c d hc hd
      refine ⟨(r1 _ _).1, fun hno => ?_⟩
      rw [(r1 _ _).2 hno]
      exact z0 c d hc hd

/-- C11: whenever `read_graph` returns on a graph text, row 0 and column 0 of
its matrix are zero: `[0][v] = 0` and `[v][0] = 0` for every `v` in
`0..node_count`. -/
theorem read_graph_row_col_zero (text : List Char) (r : ParsedGraph)
    (h : read_graph (some text) = .ok r) (v : Int) (hv0 : 0 ≤ v) (hvn : v ≤ r.node_count) :
    readGraph r.graph 0 v = some 0 ∧ readGraph r.graph v 0 = some 0 := by
  obtain ⟨k, hk⟩ := Int.eq_ofNat_of_zero_le (le_trans hv0 hvn)
  obtain ⟨d, rfl⟩ := Int.eq_ofNat_of_zero_le hv0
  have hd : d ≤ k := by rw [hk] at hvn; exact_mod_cast hvn
  have hent := read_graph_entries text r h k hk
  have h1 : ¬ ∃ l ∈ listed (edge_section text), lists_edge l ((0 : Nat) : Int) (d : Int) := by
    rintro ⟨l, _, hu, hv, h | h⟩
    · rw [h.1] at hu; exact absurd hu (by decide)
    · rw [h.2] at hv; exact absurd hv (by decide)
  have h2 : ¬ ∃ l ∈ listed (edge_section text), lists_edge l (d : Int) ((0 : Nat) : Int) := by
    rintro ⟨l, _, hu, hv, h | h⟩
    · rw [h.2] at hv; exact absurd hv (by decide)
    · rw [h.1] at hu; exact absurd hu (by decide)
  exact ⟨(hent 0 d (Nat.zero_le _) hd).2 h1, (hent d 0 hd (Nat.zero_le _)).2 h2⟩

/-- The file `repeats`, which names node 0 in the line "0 1", in
`read_graph_row_col_zero`, at `v = 1`. -/
theorem read_graph_row_col_zero_witness :
    readGraph [[0, 0, 0], [0, 0, 1], [0, 1, 1]] 0 1 = some 0 ∧
      readGraph [[0, 0, 0], [0, 0, 1], [0, 1, 1]] 1 0 = some 0 :=
  read_graph_row_col_zero repeats
    { graph := [[0, 0, 0], [0, 0, 1], [0, 1, 1]], node_count := 2, edge_count := 3 }
    (by rfl) 1 (by decide) (by decide)

theorem strtok_shorter (delim s token more : List Char)
    (h : strtok delim s = some (token, more)) : more.length < s.length := by
  unfold strtok at h
  split at h
  · exact Option.noConfusion h
  · rename_i c cs hd
    injection h with h
    injection h with _ hm
    subst hm
    have h1 : (c :: cs).length ≤ s.length := by
      rw [← hd]
      exact (List.dropWhile_sublist _).length_le
    have h2 : ((c :: cs).dropWhile (fun c => !delim.contains c)).length ≤ (c :: cs).length :=
      (List.dropWhile_sublist _).length_le
    simp only [List.length_drop, List.length_cons] at h1 h2 ⊢
    omega

/-- The fuel of `strtok_all` does not matter once it reaches the length of
the string: `line_tokens` never runs out of it. -/
theorem strtok_all_fuel (delim : List Char) :
    ∀ (f1 f2 : Nat) (s : List Char), s.length ≤ f1 → s.length ≤ f2 →
      strtok_all delim f1 s = strtok_all delim f2 s := by
  intro f1
  induction f1 with
  | zero =>
    intro f2 s h1 _
    have hs : s = [] := List.length_eq_zero.1 (Nat.le_zero.1 h1)
    subst hs
    cases f2 with
    | zero => rfl
    | succ j => simp [strtok_all, strtok]
  | succ k ih =>
    intro f2 s h1 h2
    cases f2 with
    | zero =>
      have hs : s = [] := List.length_eq_zero.1 (Nat.le_zero.1 h2)
      subst hs
      simp [strtok_all, strtok]
    | succ j =>
      simp only [strtok_all]
      cases hst : strtok delim s with
      | none => rfl
      | some p =>
        obtain ⟨token, more⟩ := p
        have := strtok_shorter delim s token more hst
        simp only
        rw [ih j more (by omega) (by omega)]

/-! ## The node loop of read_tour -/

theorem accepted_nil (n : Int) : accepted n [] = [] := rfl

theorem accepted_stop (n : Int) (vs : List Int) : accepted n (-1 :: vs) = [] := by
  simp [accepted, List.takeWhile]

theorem accepted_take (n v : Int) (vs : List Int) (h1 : v ≠ -1) (h2 : 0 < v ∧ v ≤ n) :
    accepted n (v :: vs) = v :: accepted n vs := by
  have h3 : 1 ≤ v ∧ v ≤ n := ⟨by omega, h2.2⟩
  simp [accepted, List.takeWhile, h1, h3]

theorem accepted_skip (n v : Int) (vs : List Int) (h1 : v ≠ -1) (h2 : ¬ (0 < v ∧ v ≤ n)) :
    accepted n (v :: vs) = accepted n vs := by
  have h3 : ¬ (1 ≤ v ∧ v ≤ n) := fun h => h2 ⟨by omega, h.2⟩
  simp [accepted, List.takeWhile, h1, h3]

theorem writeAt_append_length (pre rest : List Int) (x v : Int) :
    writeAt (pre ++ x :: rest) (pre.length : Int) v = some (pre ++ v :: rest) := by
  simp [writeAt]

/-- The token loop on a block with room for the accepted nodes: it returns,
with the accepted nodes stored from `current_pos` on. -/
theorem read_nodes_line_spec (n : Int) :
    ∀ (toks : List (List Char)) (s : TourState) (pre rest : List Int),
      s.tour = pre ++ rest → s.current_pos = (pre.length : Int) →
      (accepted n (toks.map atoi)).length ≤ rest.length →
      ∃ s1, read_nodes_line n toks s = .ok s1 ∧
        s1.tour = pre ++ accepted n (toks.map atoi) ++
          rest.drop (accepted n (toks.map atoi)).length ∧
        s1.current_pos = ((pre.length + (accepted n (toks.map atoi)).length : Nat) : Int) := by
  intro toks
  induction toks with
  | nil =>
    intro s pre rest ht hp _
    exact ⟨s, rfl, by simp [accepted_nil, ht], by simp [accepted_nil, hp]⟩
  | cons tok more ih =>
    intro s pre rest ht hp hlen
    simp only [List.map_cons] at hlen ⊢
    by_cases hstop : atoi tok = -1
    · refine ⟨{ s with detected_end_node := true }, by simp [read_nodes_line, hstop], ?_, ?_⟩
      · simp [hstop, accepted_stop, ht]
      · simp [hstop, accepted_stop, hp]
    · by_cases hacc : atoi tok > 0 ∧ atoi tok ≤ n
      · rw [accepted_take n _ _ hstop hacc] at hlen ⊢
        cases rest with
        | nil => simp at hlen
        | cons r0 rest1 =>
          have hw : writeAt s.tour s.current_pos (atoi tok) = some (pre ++ atoi tok :: rest1) := by
            rw [ht, hp]
            exact writeAt_append_length pre rest1 r0 (atoi tok)
          obtain ⟨s1, hrun, htour, hpos⟩ := ih
            { s with tour := pre ++ atoi tok :: rest1, current_pos := s.current_pos + 1 }
            (pre ++ [atoi tok]) rest1 (by simp) (by simp [hp])
            (by simpa using hlen)
          refine ⟨s1, ?_, ?_, ?_⟩
          · simp only [read_nodes_line, hstop, if_false, hacc, and_self, if_true, hw]
            exact hrun
          · rw [htour]
            simp
          · rw [hpos]
            simp only [List.length_append, List.length_cons, List.length_nil]
            push_cast
            omega
      · rw [accepted_skip n _ _ hstop hacc] at hlen ⊢
        obtain ⟨s1, hrun, htour, hpos⟩ := ih
          { s with err := s.err ++ [Diag.outOfRange (atoi tok)] } pre rest ht hp hlen
        refine ⟨s1, ?_, htour, hpos⟩
        simp only [read_nodes_line, hstop, if_false, hacc]
        exact hrun

/-- The token loop over two runs of tokens: the second run is reached when the
first returns without the sentinel. -/
theorem read_nodes_line_append (n : Int) :
    ∀ (a b : List (List Char)) (s : TourState), s.detected_end_node = false →
      read_nodes_line n (a ++ b) s =
        match read_nodes_line n a s with
        | .error f => .error f
        | .ok s1 => if s1.detected_end_node then .ok s1 else read_nodes_line n b s1 := by
  intro a
  induction a with
  | nil =>
    intro b s hs
    simp [read_nodes_line, hs]
  | cons tok more ih =>
    intro b s hs
    simp only [List.cons_append, read_nodes_line]
    by_cases hstop : atoi tok = -1
    · simp [hstop]
    · simp only [hstop, if_false]
      by_cases hacc : atoi tok > 0 ∧ atoi tok ≤ n
      · simp only [hacc, and_self, if_true]
        cases writeAt s.tour s.current_pos (atoi tok) with
        | none => rfl
        | some t => exact ih b _ hs
      · simp only [hacc, if_false]
        exact ih b _ hs

/-- The node loop is the token loop over the tokens of all lines. -/
theorem read_nodes_flat (n : Int) :
    ∀ (lines : List (List Char)) (s : TourState), s.detected_end_node = false →
      read_nodes n lines s = read_nodes_line n (lines.flatMap line_tokens) s := by
  intro lines
  induction lines with
  | nil => intro s _; rfl
  | cons l ls ih =>
    intro s hs
    simp only [read_nodes, hs, List.flatMap_cons]
    rw [read_nodes_line_append n _ _ s hs]
    cases hrun : read_nodes_line n (line_tokens l) s with
    | error f => simp
    | ok s1 =>
      simp only [Bool.false_eq_true, if_false]
      cases hd : s1.detected_end_node with
      | true =>
        cases ls with
        | nil => simp [read_nodes]
        | cons l2 ls2 => simp [read_nodes, hd]
      | false =>
        simp only [Bool.false_eq_true, if_false]
        exact ih s1 hd

/-- When the header leaves `node_count = n` and no more than `n` nodes are
accepted, `read_tour` returns, and the `n` slots the caller reads hold the
accepted nodes in order, then zeros. -/
theorem read_tour_nodes_padded (w : Nat) (hw : 1 ≤ w) (n : Int) (lines : List (List Char))
    (hk : (accepted n (token_values lines)).length ≤ n.toNat) :
    ∃ r, read_tour_nodes w n lines = .ok r ∧ r.node_count = n ∧
      r.tour.take n.toNat = accepted n (token_values lines) ++
        List.replicate (n.toNat - (accepted n (token_values lines)).length) 0 := by
  have hroom : (accepted n ((lines.flatMap line_tokens).map atoi)).length ≤
      (alloc_tour w n).length := by
    have : n.toNat ≤ w * n.toNat := Nat.le_mul_of_pos_left _ hw
    simp only [alloc_tour, List.length_replicate]
    exact le_trans hk this
  obtain ⟨s1, hrun, htour, _⟩ := read_nodes_line_spec n (lines.flatMap line_tokens)
    (tour_init w n) [] (alloc_tour w n) rfl rfl hroom
  have hflat := read_nodes_flat n lines (tour_init w n) rfl
  refine ⟨{ tour := s1.tour, node_count := n, err := s1.err ++
      (if s1.current_pos ≠ n then [Diag.notAllNodes n s1.current_pos] else []) },
    by simp only [read_tour_nodes, hflat, hrun], rfl, ?_⟩
  simp only [htour, List.nil_append]
  change _ = accepted n (token_values lines) ++ _
  unfold token_values at hk ⊢
  generalize accepted n ((lines.flatMap line_tokens).map atoi) = acc at hk ⊢
  have h1 : n.toNat - acc.length ≤ w * n.toNat - acc.length := by
    have : n.toNat ≤ w * n.toNat := Nat.le_mul_of_pos_left _ hw
    omega
  rw [List.take_append_eq_append_take, List.take_of_length_le hk]
  simp [alloc_tour, List.take_replicate, h1]

/-- The node loop keeps the size of the block, and keeps its entries within
`0..node_count`. -/
theorem read_nodes_line_inv (n : Int) :
    ∀ (toks : List (List Char)) (s s1 : TourState), read_nodes_line n toks s = .ok s1 →
      s1.tour.length = s.tour.length ∧
        ((∀ x ∈ s.tour, 0 ≤ x ∧ x ≤ n) → ∀ x ∈ s1.tour, 0 ≤ x ∧ x ≤ n) := by
  intro toks
  induction toks with
  | nil =>
    intro s s1 h
    simp only [read_nodes_line] at h
    injection h with h
    subst h
    exact ⟨rfl, fun h => h⟩
  | cons tok more ih =>
    intro s s1 h
    simp only [read_nodes_line] at h
    by_cases hstop : atoi tok = -1
    · simp only [hstop, if_true] at h
      injection h with h
      subst h
      exact ⟨rfl, fun h => h⟩
    · simp only [hstop, if_false] at h
      by_cases hacc : atoi tok > 0 ∧ atoi tok ≤ n
      · simp only [hacc, and_self, if_true] at h
        split at h
        · exact Except.noConfusion h
        · rename_i t hw
          obtain ⟨hl, hin⟩ := ih _ s1 h
          have ht : t = s.tour.set s.current_pos.toNat (atoi tok) := by
            unfold writeAt at hw
            split at hw
            · injection hw with hw
              exact hw.symm
            · exact Option.noConfusion hw
          simp only at hl hin
          refine ⟨by rw [hl, ht]; simp, fun h0 => hin ?_⟩
          intro x hx
          rw [ht] at hx
          rcases List.mem_or_eq_of_mem_set hx with hx | hx
          · exact h0 x hx
          · rw [hx]
            exact ⟨le_of_lt hacc.1, hacc.2⟩
      · simp only [hacc, if_false] at h
        exact ih { s with err := s.err ++ [Diag.outOfRange (atoi tok)] } s1 h

/-! ## A negative node count -/

/-- C19: for every `n < 0`, `hc_validate` with both counts `n` returns false on
every tour and every matrix, without an iteration of the walk loop and without
a read (the read log is empty), and what it prints is the coverage line
"Not all nodes visited (visited 0, expected n)". -/
theorem negative_count_rejected (tour : List Int) (graph : List (List Int)) (n : Int)
    (verbose : Bool) (hn : n < 0) :
    walk tour graph verbose n.toNat 0 (walkInit n) = .ok (walkInit n) ∧
      hc_validate tour n graph n verbose =
        .ok { valid := false, out := say verbose (Msg.notAllVisited 0 n), reads := [] } := by
  have h0 : n.toNat = 0 := Int.toNat_eq_zero.2 (le_of_lt hn)
  have hne : ¬ n = 0 := by omega
  have hne2 : ¬ (0 : Int) = n := by omega
  have hw : walk tour graph verbose n.toNat 0 (walkInit n) = .ok (walkInit n) := by
    rw [h0]; rfl
  refine ⟨hw, ?_⟩
  simp only [hc_validate, ne_eq, not_true_eq_false, if_false, hne, hw]
  simp [finish, walkInit, hne2]

/-- The count -5, which `read_graph` and `read_tour` return on a header
`DIMENSION : -5`, in `negative_count_rejected`, with the empty blocks they
return. -/
theorem negative_count_rejected_witness :
    (read_graph (some negGraph) = .ok { graph := [], node_count := -5, edge_count := 0 } ∧
      read_tour 2 (some negTour) =
        .ok { tour := [], node_count := -5, err := [Diag.notAllNodes (-5) 0] }) ∧
    (walk [] [] true (-5 : Int).toNat 0 (walkInit (-5)) = .ok (walkInit (-5)) ∧
      hc_validate [] (-5) [] (-5) true =
        .ok { valid := false, out := say true (Msg.notAllVisited 0 (-5)), reads := [] }) :=
  ⟨⟨by rfl, by rfl⟩, negative_count_rejected [] [] (-5) true (by decide)⟩

/-! ## Validation of parsed inputs -/

theorem length_mismatch_rejected_aux (tour : List Int) (tour_node_count : Int)
    (graph : List (List Int)) (node_count : Int) (verbose : Bool)
    (h : tour_node_count ≠ node_count) :
    hc_validate tour tour_node_count graph node_count verbose =
      .ok { valid := false, out := say verbose Msg.sizeMismatch, reads := [] } := by
  simp [hc_validate, h]

theorem empty_graph_rejected_aux (tour : List Int) (graph : List (List Int)) (verbose : Bool) :
    hc_validate tour ((0 : Nat) : Int) graph ((0 : Nat) : Int) verbose =
      .ok { valid := false, out := say verbose Msg.emptyGraph, reads := [] } := by
  simp [hc_validate]

/-- What `read_tour` returns: a block of `ptr_ints * node_count` slots whose
entries all lie in `0..node_count`. -/
theorem read_tour_inv (w : Nat) (file : Option (List Char)) (r : ParsedTour)
    (h : read_tour w file = .ok r) :
    (∀ x ∈ r.tour, 0 ≤ x ∧ x ≤ r.node_count) ∧
      (file.isSome → r.tour.length = w * r.node_count.toNat) := by
  cases file with
  | none =>
    simp only [read_tour] at h
    injection h with h
    subst h
    exact ⟨fun x hx => absurd hx (List.not_mem_nil _), fun h => Bool.noConfusion h⟩
  | some text =>
    simp only [read_tour] at h
    split at h
    · exact Except.noConfusion h
    · rename_i n rest _
      simp only [read_tour_nodes] at h
      split at h
      · exact Except.noConfusion h
      · rename_i s1 hrun
        injection h with h
        subst h
        rw [read_nodes_flat n rest _ rfl] at hrun
        obtain ⟨hlen, hin⟩ := read_nodes_line_inv n _ _ s1 hrun
        have hinit : ∀ x ∈ (tour_init w n).tour, 0 ≤ x ∧ x ≤ n := by
          intro x hx
          simp only [tour_init, alloc_tour] at hx
          obtain ⟨hne, rfl⟩ := List.mem_replicate.1 hx
          have : n.toNat ≠ 0 := fun h0 => hne (by rw [h0, Nat.mul_zero])
          have : 0 < n := by
            by_contra hc
            exact this (Int.toNat_eq_zero.2 (not_lt.1 hc))
          exact ⟨le_refl _, le_of_lt this⟩
        refine ⟨hin hinit, fun _ => ?_⟩
        simp only [hlen, tour_init, alloc_tour, List.length_replicate]

theorem walk_congr (t1 t2 : List Int) (g : List (List Int)) (v : Bool) :
    ∀ (k pos : Nat) (s : WalkState),
      (∀ i : Nat, pos ≤ i → i < pos + k → readAt t1 (i : Int) = readAt t2 (i : Int)) →
      walk t1 g v k (pos : Int) s = walk t2 g v k (pos : Int) s := by
  intro k
  induction k with
  | zero => intro pos s _; rfl
  | succ k ih =>
    intro pos s h
    simp only [walk]
    rw [h pos (le_refl _) (by omega)]
    cases readAt t2 (pos : Int) with
    | none => rfl
    | some x =>
      simp only
      cases check_edge g v x { s with reads := s.reads ++ [Access.tour (pos : Int)] } with
      | error f => rfl
      | ok p =>
        obtain ⟨b, s1⟩ := p
        cases b with
        | false => rfl
        | true =>
          simp only
          cases mark_visited x s1 with
          | error f => rfl
          | ok s2 =>
            simp only
            have := ih (pos + 1) s2 (fun i h1 h2 => h i (by omega) (by omega))
            simpa using this

/-- The function `hc_validate` reads the first `node_count` slots of the tour only. -/
theorem hc_validate_congr (t1 t2 : List Int) (g : List (List Int)) (n : Nat) (v : Bool)
    (hn : 1 ≤ n) (h : ∀ i : Nat, i < n → readAt t1 (i : Int) = readAt t2 (i : Int)) :
    hc_validate t1 (n : Int) g (n : Int) v = hc_validate t2 (n : Int) g (n : Int) v := by
  have hn0 : ¬ (n : Int) = 0 := by omega
  have hw := walk_congr t1 t2 g v n 0 (walkInit (n : Int))
    (fun i _ hi => h i (by omega))
  have h0 : readAt t1 0 = readAt t2 0 := by simpa using h 0 (by omega)
  have h1 : readAt t1 ((n : Int) - 1) = readAt t2 ((n : Int) - 1) := by
    have := h (n - 1) (by omega)
    rwa [Nat.cast_sub hn, Nat.cast_one] at this
  simp only [hc_validate, ne_eq, not_true_eq_false, if_false, hn0, Int.toNat_ofNat]
  simp only [Nat.cast_zero] at hw
  rw [hw]
  cases walk t2 g v n 0 (walkInit (n : Int)) with
  | error f => rfl
  | ok s => simp only [finish, h0, h1]

/-- C17: every block `read_tour` returns has all its entries in
`0..node_count`; for every `n ≥ 1`, every tour of length `n` with entries in
`0..n` and every `(n+1) × (n+1)` matrix, `hc_validate` returns (none of its
accesses is out of bounds), and returns false when the tour contains 0 and row
and column 0 of the matrix are zero; and on the block of `read_tour` itself,
when its `node_count` is `n`, `hc_validate` returns as well. -/
theorem validation_in_bounds (w : Nat) (file : Option (List Char)) (r : ParsedTour)
    (n : Nat) (g : List (List Int)) (t : List Int) (verbose : Bool)
    (hw : 1 ≤ w) (hread : read_tour w file = .ok r)
    (hn : 1 ≤ n) (hg : IsMatrix g n) (hl : t.length = n) (hr : InRange 0 n t) :
    (∀ x ∈ r.tour, 0 ≤ x ∧ x ≤ r.node_count) ∧
      (∃ o, hc_validate t (n : Int) g (n : Int) verbose = .ok o ∧
        ((0 : Int) ∈ t → ZeroBorder g n → o.valid = false)) ∧
      (r.node_count = (n : Int) →
        ∃ o, hc_validate r.tour (n : Int) g (n : Int) verbose = .ok o) := by
  obtain ⟨hin, hlen⟩ := read_tour_inv w file r hread
  refine ⟨hin, ?_, ?_⟩
  · obtain ⟨o, ho, hrep⟩ := hc_validate_run g t n verbose hn hg hl hr
    refine ⟨o, ho, fun h0 hz => ?_⟩
    cases hv : o.valid with
    | false => rfl
    | true =>
      exfalso
      obtain ⟨_, _, _, hchain, hclose⟩ := accepted_facts g t n verbose hg hl o ho hv
      exact zero_not_mem_of_edges hz hl hr hchain hclose h0
  · intro hcount
    have hsome : file.isSome = true := by
      cases file with
      | none =>
        simp only [read_tour] at hread
        injection hread with hread
        subst hread
        simp only at hcount
        omega
      | some text => rfl
    have hblock : r.tour.length = w * n := by
      rw [hlen hsome, hcount, Int.toNat_ofNat]
    have hge : n ≤ r.tour.length := by
      rw [hblock]
      exact Nat.le_mul_of_pos_left _ hw
    have hl2 : (r.tour.take n).length = n := by simp [hge]
    have hr2 : InRange 0 n (r.tour.take n) := by
      intro x hx
      have := hin x (List.mem_of_mem_take hx)
      rwa [hcount] at this
    obtain ⟨o, ho, _⟩ := hc_validate_run g (r.tour.take n) n verbose hn hg hl2 hr2
    refine ⟨o, ?_⟩
    rw [← ho]
    apply hc_validate_congr _ _ g n verbose hn
    intro i hi
    simp [readAt_natCast, List.getElem?_take, hi]

/-- The file `shortTour`, whose block is 1, 2 and zeros, in
`validation_in_bounds`, with the 4-cycle and the tour 1, 2, 0, 0. -/
theorem validation_in_bounds_witness :
    (∀ x ∈ ([1, 2, 0, 0, 0, 0, 0, 0] : List Int), 0 ≤ x ∧ x ≤ (4 : Int)) ∧
      (∃ o, hc_validate [1, 2, 0, 0] ((4 : Nat) : Int) cycle4 ((4 : Nat) : Int) true = .ok o ∧
        ((0 : Int) ∈ ([1, 2, 0, 0] : List Int) → ZeroBorder cycle4 4 → o.valid = false)) ∧
      ((4 : Int) = ((4 : Nat) : Int) →
        ∃ o, hc_validate [1, 2, 0, 0, 0, 0, 0, 0] ((4 : Nat) : Int) cycle4 ((4 : Nat) : Int) true
          = .ok o) :=
  validation_in_bounds 2 (some shortTour)
    { tour := [1, 2, 0, 0, 0, 0, 0, 0], node_count := 4,
      err := [Diag.outOfRange 7, Diag.notAllNodes 4 2] }
    4 cycle4 [1, 2, 0, 0] true (by decide) (by rfl) (by decide) (by unfold IsMatrix; decide) rfl
    (by unfold InRange; decide)

/-! ## The order of the checks -/

theorem adjacent_false_zero {g : List (List Int)} {n : Nat} (hg : IsMatrix g n)
    {a b : Nat} (ha : a ≤ n) (hb : b ≤ n) (h : adjacent g (a : Int) (b : Int) = false) :
    readGraph g (a : Int) (b : Int) = some 0 := by
  obtain ⟨e, he⟩ := hg.readable ha hb
  exact (adjacent_eq_false_iff g _ _ e he).1 h

/-- C18: on an `(n+1) × (n+1)` matrix and a tour of length `n` with entries in
`0..n`, `hc_validate` returns and reports the first failing check in the order
size mismatch, empty graph, missing edge, coverage, closure: after a size
mismatch or on an empty graph nothing else is printed; a missing edge is
reported for the smallest `i` with `g[t[i]][t[i+1]]` zero, as the pair
`t[i], t[i+1]`, and nothing else is printed, whether nodes repeat or not; the
coverage line needs all walk edges; the closure line needs all walk edges and
`n` distinct nodes. -/
theorem first_failing_check (n : Nat) (tn : Int) (g : List (List Int)) (t : List Int)
    (verbose : Bool) (hg : IsMatrix g n) (hl : t.length = n) (hr : InRange 0 n t) :
    ∃ o, hc_validate t tn g (n : Int) verbose = .ok o ∧
      (tn ≠ (n : Int) → o.valid = false ∧ o.out = say verbose Msg.sizeMismatch) ∧
      (tn = (n : Int) → n = 0 → o.valid = false ∧ o.out = say verbose Msg.emptyGraph) ∧
      (tn = (n : Int) → 1 ≤ n →
        (∀ i, i + 1 < n →
          (∀ j, j < i → adjacent g (nth t j) (nth t (j + 1)) = true) →
          adjacent g (nth t i) (nth t (i + 1)) = false →
          o.valid = false ∧ o.out = say verbose (Msg.noEdge (nth t i) (nth t (i + 1)))) ∧
        ((∀ i, i + 1 < n → adjacent g (nth t i) (nth t (i + 1)) = true) →
          (¬ t.Nodup →
            o.valid = false ∧
              o.out = say verbose (Msg.notAllVisited (t.toFinset.card : Int) (n : Int))) ∧
          (t.Nodup → adjacent g (nth t 0) (nth t (n - 1)) = false →
            o.valid = false ∧
              o.out = say verbose Msg.validPath ++ say verbose Msg.firstNotLast) ∧
          (t.Nodup → adjacent g (nth t 0) (nth t (n - 1)) = true →
            o.valid = true ∧
              o.out = say verbose Msg.validPath ++ say verbose Msg.validCycle))) := by
  by_cases htn : tn = (n : Int)
  · subst htn
    rcases Nat.eq_zero_or_pos n with h0 | hpos
    · subst h0
      refine ⟨_, empty_graph_rejected_aux t g verbose, fun h => absurd rfl h,
        fun _ _ => ⟨rfl, rfl⟩, fun _ h => absurd h (by decide)⟩
    · obtain ⟨o, ho, hrep⟩ := hc_validate_run g t n verbose hpos hg hl hr
      have hval : o.valid = (report g t n verbose).1 := congrArg Prod.fst hrep
      have hout : o.out = (report g t n verbose).2 := congrArg Prod.snd hrep
      have hnat : ∀ j, j < n → ∃ k : Nat, k ≤ n ∧ nth t j = (k : Int) := by
        intro j hj
        obtain ⟨h0, h1⟩ := hr _ (nth_mem t j (by omega))
        obtain ⟨k, hk⟩ := Int.eq_ofNat_of_zero_le h0
        exact ⟨k, by rw [hk] at h1; exact_mod_cast h1, hk⟩
      have hne : ∀ y ∈ t, y ≠ -1 := fun y hy => by have := (hr y hy).1; omega
      refine ⟨o, ho, fun h => absurd rfl h, fun _ h => by omega, fun _ _ => ⟨?_, ?_⟩⟩
      · intro i hi hbefore hat
        obtain ⟨a, ha, hae⟩ := hnat i (by omega)
        obtain ⟨b, hb, hbe⟩ := hnat (i + 1) hi
        have hzero : readGraph g (nth t i) (nth t (i + 1)) = some 0 := by
          rw [hae, hbe] at hat ⊢
          exact adjacent_false_zero hg ha hb hat
        have hgap := gap_start_first g t i hne (by omega)
          (fun j hj => adjacent_true_ne_zero g _ _ (hbefore j hj)) hzero
        rw [hval, hout]
        simp [report, hgap]
      · intro hchain
        have hgap : gap g (-1) t = none := by
          rw [gap_start_eq_none_iff hg t hr, hl]
          exact hchain
        have hcard : (t.toFinset.card : Int) = (n : Int) ↔ t.Nodup := by
          rw [← card_toFinset_eq_length_iff, hl]
          exact Nat.cast_inj
        refine ⟨fun hnd => ?_, fun hnd hopen => ?_, fun hnd hclose => ?_⟩
        · have hc : ¬ (t.toFinset.card : Int) = (n : Int) := fun h => hnd (hcard.1 h)
          rw [hval, hout]
          simp [report, hgap, hc]
        · have hc := hcard.2 hnd
          rw [hval, hout]
          simp [report, hgap, hc, hopen]
        · have hc := hcard.2 hnd
          rw [hval, hout]
          simp [report, hgap, hc, hclose]
  · exact ⟨_, length_mismatch_rejected_aux t tn g (n : Int) verbose htn,
      fun _ => ⟨rfl, rfl⟩, fun h => absurd h htn, fun h => absurd h htn⟩

/-- The tour 1, 3, 2, 2 on the 4-cycle, which has a missing edge and a
repeated node, in `first_failing_check`: the missing edge (1, 3) is reported. -/
theorem first_failing_check_witness :
    ∃ o, hc_validate [1, 3, 2, 2] (4 : Int) cycle4 ((4 : Nat) : Int) true = .ok o ∧
      o.valid = false ∧ o.out = say true (Msg.noEdge 1 3) := by
  obtain ⟨o, ho, _, _, h3⟩ := first_failing_check 4 4 cycle4 [1, 3, 2, 2] true
    (by unfold IsMatrix; decide) rfl (by unfold InRange; decide)
  exact ⟨o, ho, (h3 rfl (by decide)).1 0 (by decide) (fun j hj => absurd hj (Nat.not_lt_zero j))
    (by decide)⟩

/-! ## Rotations of a tour -/

theorem nth_last (t : List Int) (h : t ≠ []) : nth t (t.length - 1) = t.getLast h := by
  have hpos : 0 < t.length := List.length_pos.2 h
  rw [nth_eq_get t (t.length - 1) (by omega), List.getLast_eq_getElem]
  rfl

/-- The verdict of the specification in terms of lists: a chain of edges, no
repeated node, and the edge between the first and the last node. -/
theorem report_valid_iff_chain {g : List (List Int)} {n : Nat} (hg : IsMatrix g n)
    (t : List Int) (v : Bool) (hl : t.length = n) (hr : InRange 0 n t) (hne : t ≠ []) :
    (report g t n v).1 = true ↔
      List.Chain' (fun a b => adjacent g a b = true) t ∧ t.Nodup ∧
        adjacent g (t.head hne) (t.getLast hne) = true := by
  rw [report_valid_iff, gap_start_eq_none_iff hg t hr,
    ← chain_nth (fun a b => adjacent g a b = true) t]
  have hcard : (t.toFinset.card : Int) = (n : Int) ↔ t.Nodup := by
    rw [← card_toFinset_eq_length_iff, hl]
    exact Nat.cast_inj
  have hlast : nth t (n - 1) = t.getLast hne := by rw [← hl]; exact nth_last t hne
  have hhead : nth t 0 = t.head hne := by
    cases t with
    | nil => exact absurd rfl hne
    | cons x xs => rfl
  rw [hcard, hlast, hhead]

theorem adjacent_symm {g : List (List Int)} {n : Nat} (hsym : Symmetric g n)
    {a b : Int} (ha : 0 ≤ a ∧ a ≤ (n : Int)) (hb : 0 ≤ b ∧ b ≤ (n : Int)) :
    adjacent g a b = adjacent g b a := by
  obtain ⟨i, rfl⟩ := Int.eq_ofNat_of_zero_le ha.1
  obtain ⟨j, rfl⟩ := Int.eq_ofNat_of_zero_le hb.1
  unfold adjacent
  rw [hsym i j (by exact_mod_cast ha.2) (by exact_mod_cast hb.2)]

/-- Moving the first node of a tour to its end keeps the verdict of the
specification when the matrix is symmetric. -/
theorem report_rotate_one {g : List (List Int)} {n : Nat} (hg : IsMatrix g n)
    (hsym : Symmetric g n) (t : List Int) (v : Bool) (hl : t.length = n)
    (hr : InRange 0 n t) (hn : 1 ≤ n) :
    (report g (t.rotate 1) n v).1 = (report g t n v).1 := by
  cases t with
  | nil => simp at hl; omega
  | cons x xs =>
    cases xs with
    | nil => simp
    | cons y ys =>
      have hrot : (x :: y :: ys).rotate 1 = (y :: ys) ++ [x] := by
        simp [List.rotate_cons_succ]
      have hr1 : InRange 0 n ((y :: ys) ++ [x]) := by
        intro z hz
        apply hr
        rcases List.mem_append.1 hz with h | h
        · exact List.mem_cons_of_mem _ h
        · rw [List.mem_singleton.1 h]; exact List.mem_cons_self _ _
      have hl1 : ((y :: ys) ++ [x]).length = n := by
        rw [← hl]; simp
      rw [hrot]
      apply Bool.eq_iff_iff.2
      rw [report_valid_iff_chain hg _ v hl1 hr1 (by simp),
        report_valid_iff_chain hg _ v hl hr (by simp)]
      have hx := hr x (List.mem_cons_self _ _)
      have hy := hr y (List.mem_cons_of_mem _ (List.mem_cons_self _ _))
      have hz := hr ((y :: ys).getLast (by simp))
        (List.mem_cons_of_mem _ (List.getLast_mem _))
      have hyx := adjacent_symm (g := g) hsym hy hx
      have hzx := adjacent_symm (g := g) hsym hz hx
      have hnd : ((y :: ys) ++ [x]).Nodup ↔ (x :: y :: ys).Nodup :=
        List.Perm.nodup_iff (by
          have : (y :: ys) ++ [x] = (y :: ys) ++ [x] := rfl
          exact List.perm_append_singleton x (y :: ys))
      have hlast1 : ((y :: ys) ++ [x]).getLast (by simp) = x := by simp
      have hlast2 : (x :: y :: ys).getLast (by simp) = (y :: ys).getLast (by simp) := by simp
      have hch1 : List.Chain' (fun a b => adjacent g a b = true) ((y :: ys) ++ [x]) ↔
          List.Chain' (fun a b => adjacent g a b = true) (y :: ys) ∧
            adjacent g ((y :: ys).getLast (by simp)) x = true := by
        rw [List.chain'_append]
        constructor
        · rintro ⟨h1, _, h3⟩
          exact ⟨h1, h3 _ (List.getLast?_eq_getLast _ (by simp)) x rfl⟩
        · rintro ⟨h1, h3⟩
          refine ⟨h1, List.chain'_singleton x, ?_⟩
          intro a ha b hb
          rw [List.getLast?_eq_getLast _ (by simp)] at ha
          cases ha
          cases hb
          exact h3
      have hch2 : List.Chain' (fun a b => adjacent g a b = true) (x :: y :: ys) ↔
          adjacent g x y = true ∧ List.Chain' (fun a b => adjacent g a b = true) (y :: ys) :=
        List.chain'_cons
      rw [hnd, hch1, hch2]
      simp only [List.cons_append, List.head_cons, hlast2]
      have hlast3 : (y :: (ys ++ [x])).getLast (by simp) = x := by simp
      rw [hlast3, hyx, hzx]
      constructor
      · rintro ⟨⟨h1, h2⟩, h3, h4⟩
        exact ⟨⟨h4, h1⟩, h3, h2⟩
      · rintro ⟨⟨h1, h2⟩, h3, h4⟩
        exact ⟨⟨h2, h4⟩, h3, h1⟩

theorem report_rotate {g : List (List Int)} {n : Nat} (hg : IsMatrix g n)
    (hsym : Symmetric g n) (t : List Int) (v : Bool) (hl : t.length = n)
    (hr : InRange 0 n t) (hn : 1 ≤ n) :
    ∀ k, (report g (t.rotate k) n v).1 = (report g t n v).1 := by
  intro k
  induction k with
  | zero => simp
  | succ k ih =>
    have hl1 : (t.rotate k).length = n := by rw [List.length_rotate, hl]
    have hr1 : InRange 0 n (t.rotate k) := fun x hx => hr x (List.mem_rotate.1 hx)
    rw [← List.rotate_rotate, report_rotate_one hg hsym (t.rotate k) v hl1 hr1 hn, ih]

theorem verdict_eq_report (g : List (List Int)) (t : List Int) (n : Nat) (v : Bool)
    (hn : 1 ≤ n) (hg : IsMatrix g n) (hl : t.length = n) (hr : InRange 0 n t) :
    verdict (hc_validate t (n : Int) g (n : Int) v) = some (report g t n v).1 := by
  obtain ⟨o, ho, hrep⟩ := hc_validate_run g t n v hn hg hl hr
  rw [ho]
  simp only [verdict]
  rw [← congrArg Prod.fst hrep]

/-- C20: for every `n ≥ 1`, every symmetric `(n+1) × (n+1)` matrix, every tour
of length `n` with entries in `0..n` and every `k`, `hc_validate` returns the
same boolean on the tour rotated by `k` positions as on the tour; and without
symmetry this fails: the matrix `oneWay` accepts 1, 2, 3 and rejects its
rotation 2, 3, 1. -/
theorem rotation_keeps_verdict (n k : Nat) (g : List (List Int)) (t : List Int)
    (verbose : Bool) (hn : 1 ≤ n) (hg : IsMatrix g n) (hsym : Symmetric g n)
    (hl : t.length = n) (hr : InRange 0 n t) :
    verdict (hc_validate (t.rotate k) (n : Int) g (n : Int) verbose) =
        verdict (hc_validate t (n : Int) g (n : Int) verbose) ∧
      (IsMatrix oneWay 3 ∧ ¬ Symmetric oneWay 3 ∧
        verdict (hc_validate [1, 2, 3] 3 oneWay 3 true) = some true ∧
        verdict (hc_validate (([1, 2, 3] : List Int).rotate 1) 3 oneWay 3 true) = some false) := by
  have hl1 : (t.rotate k).length = n := by rw [List.length_rotate, hl]
  have hr1 : InRange 0 n (t.rotate k) := fun x hx => hr x (List.mem_rotate.1 hx)
  refine ⟨?_, by unfold IsMatrix; decide, ?_, by decide, by decide⟩
  · rw [verdict_eq_report g _ n verbose hn hg hl1 hr1,
      verdict_eq_report g t n verbose hn hg hl hr, report_rotate hg hsym t verbose hl hr hn k]
  · intro h
    have := h 1 2 (by decide) (by decide)
    exact absurd this (by decide)

/-- The 4-cycle and the tour 1, 2, 3, 4 rotated by 3 positions in
`rotation_keeps_verdict`. -/
theorem rotation_keeps_verdict_witness :
    verdict (hc_validate (([1, 2, 3, 4] : List Int).rotate 3) ((4 : Nat) : Int) cycle4
        ((4 : Nat) : Int) true) =
      verdict (hc_validate [1, 2, 3, 4] ((4 : Nat) : Int) cycle4 ((4 : Nat) : Int) true) :=
  (rotation_keeps_verdict 4 3 cycle4 [1, 2, 3, 4] true (by decide) (by unfold IsMatrix; decide)
    (by intro a b ha hb; interval_cases a <;> interval_cases b <;> decide) rfl
    (by unfold InRange; decide)).1

/-! ## More accepted nodes than slots -/

/-- When the header of a tour text leaves `node_count = n` and the node
section `lines`, and at most `n` nodes are accepted, `read_tour` returns
`node_count = n` and the accepted nodes in order, padded with zeros to `n` slots. -/
theorem read_tour_padded (w : Nat) (hw : 1 ≤ w) (text : List Char) (n : Int)
    (lines : List (List Char))
    (hhead : read_header tour_marker (stream_lines text) 0 = .ok (n, lines))
    (hk : (accepted n (token_values lines)).length ≤ n.toNat) :
    ∃ r, read_tour w (some text) = .ok r ∧ r.node_count = n ∧
      r.tour.take n.toNat = accepted n (token_values lines) ++
        List.replicate (n.toNat - (accepted n (token_values lines)).length) 0 := by
  obtain ⟨r, hr, h1, h2⟩ := read_tour_nodes_padded w hw n lines hk
  exact ⟨r, by simp only [read_tour, hhead, hr], h1, h2⟩

/-- C13 fails on the file `overTour`: with `DIMENSION` 1 the block has one
slot on a 32-bit platform and two on a 64-bit one, the three accepted nodes
1, 1, 1 are stored at `tour[0]`, `tour[1]`, `tour[2]`, and the last store is
outside the block on both. -/
theorem read_tour_overflow :
    read_header tour_marker (stream_lines overTour) 0 =
        .ok (1, ["1 1 1\n".toList, "-1\n".toList]) ∧
      accepted 1 (token_values ["1 1 1\n".toList, "-1\n".toList]) = [1, 1, 1] ∧
      read_tour 1 (some overTour) = .error Fault.outOfBounds ∧
      read_tour 2 (some overTour) = .error Fault.outOfBounds :=
  ⟨by rfl, by rfl, by rfl, by rfl⟩

/-! ## The header -/

/-- A header line that is not the marker line and whose first token is not
`DIMENSION` leaves `node_count` as it is. -/
theorem read_header_other_key (marker line : List Char) (rest : List (List Char)) (n : Int)
    (hm : marker.isPrefixOf (cstr line) = false)
    (hkey : ∀ token more, strtok header_delim (cstr line) = some (token, more) →
      token ≠ "DIMENSION".toList) :
    read_header marker (line :: rest) n = read_header marker rest n := by
  simp only [read_header, hm, Bool.false_eq_true, if_false]
  cases hst : strtok header_delim (cstr line) with
  | none => rfl
  | some p =>
    obtain ⟨token, more⟩ := p
    simp only [hkey token more hst, if_false]

/-- A header line with the key `DIMENSION` and a second token sets
`node_count` to `atoi` of that token: the integer it starts with, 0 when it
starts with none. -/
theorem read_header_dimension (marker line : List Char) (rest : List (List Char)) (n : Int)
    (more value more2 : List Char)
    (hm : marker.isPrefixOf (cstr line) = false)
    (hkey : strtok header_delim (cstr line) = some ("DIMENSION".toList, more))
    (hval : strtok header_delim more = some (value, more2)) :
    read_header marker (line :: rest) n = read_header marker rest (atoi value) := by
  simp only [read_header, hm, Bool.false_eq_true, if_false, hkey, if_true, hval]

/-- A header line with the key `DIMENSION` and no second token makes the
reader call `atoi(NULL)`. -/
theorem read_header_no_value (marker line : List Char) (rest : List (List Char)) (n : Int)
    (more : List Char)
    (hm : marker.isPrefixOf (cstr line) = false)
    (hkey : strtok header_delim (cstr line) = some ("DIMENSION".toList, more))
    (hval : strtok header_delim more = none) :
    read_header marker (line :: rest) n = .error Fault.nullPointer := by
  simp only [read_header, hm, Bool.false_eq_true, if_false, hkey, if_true, hval]

/-- C15 fails on the file `noValue`, whose last line is `DIMENSION :` with no
value and no newline: `strtok` returns `NULL` for the value and both readers
call `atoi(NULL)`.  A value that is not a number, or a file without the key,
gives `node_count = 0`. -/
theorem dimension_without_value_faults :
    read_graph (some noValue) = .error Fault.nullPointer ∧
      read_tour 2 (some noValue) = .error Fault.nullPointer ∧
      read_graph (some "DIMENSION : abc\nEDGE_DATA_SECTION\n".toList) =
        .ok { graph := [[0]], node_count := 0, edge_count := 0 } ∧
      read_graph (some "DIMENSION :\nEDGE_DATA_SECTION\n".toList) =
        .ok { graph := [[0]], node_count := 0, edge_count := 0 } ∧
      read_graph (some "NAME : x\nEDGE_DATA_SECTION\n".toList) =
        .ok { graph := [[0]], node_count := 0, edge_count := 0 } :=
  ⟨by rfl, by rfl, by rfl, by rfl, by rfl⟩

/-- The header loop on lines none of which starts with the marker, followed by
a line that does: it ends at that line and leaves the lines after it. -/
theorem read_header_append (marker m : List Char) (B : List (List Char))
    (hm : marker.isPrefixOf (cstr m) = true) :
    ∀ (A : List (List Char)) (n0 n : Int),
      (∀ l ∈ A, marker.isPrefixOf (cstr l) = false) →
      read_header marker A n0 = .ok (n, []) →
      read_header marker (A ++ m :: B) n0 = .ok (n, B) := by
  intro A
  induction A with
  | nil =>
    intro n0 n _ h
    simp only [read_header] at h
    injection h with h
    injection h with h _
    subst h
    simp [read_header, hm]
  | cons l ls ih =>
    intro n0 n hA h
    have hl := hA l (List.mem_cons_self _ _)
    have hls : ∀ l1 ∈ ls, marker.isPrefixOf (cstr l1) = false :=
      fun l1 h1 => hA l1 (List.mem_cons_of_mem _ h1)
    simp only [List.cons_append, read_header, hl, Bool.false_eq_true, if_false] at h ⊢
    cases hst : strtok header_delim (cstr l) with
    | none =>
      rw [hst] at h
      exact ih n0 n hls h
    | some p =>
      obtain ⟨token, more⟩ := p
      rw [hst] at h
      simp only at h ⊢
      by_cases hkey : token = "DIMENSION".toList
      · simp only [hkey, if_true] at h ⊢
        cases hv : strtok header_delim more with
        | none =>
          rw [hv] at h
          exact Except.noConfusion h
        | some q =>
          obtain ⟨value, more2⟩ := q
          rw [hv] at h
          exact ih (atoi value) n hls h
      · simp only [hkey, if_false] at h ⊢
        exact ih n0 n hls h

/-- C16 (amended): `read_tour` ends header parsing at the first line that
starts with `TOUR_SECTION`: when the lines of a tour text are `A`, a line `m`
that starts with the marker, and `B`, no line of `A` starting with it, the node
section is `B`, and `read_tour` is the node loop over `B` with the
`node_count` the header lines `A` give. -/
theorem header_ends_at_marker_line (w : Nat) (text : List Char) (A : List (List Char))
    (m : List Char) (B : List (List Char)) (n : Int)
    (hlines : stream_lines text = A ++ m :: B)
    (hA : ∀ l ∈ A, tour_marker.isPrefixOf (cstr l) = false)
    (hm : tour_marker.isPrefixOf (cstr m) = true)
    (hdim : read_header tour_marker A 0 = .ok (n, [])) :
    read_header tour_marker (stream_lines text) 0 = .ok (n, B) ∧
      read_tour w (some text) = read_tour_nodes w n B := by
  have h := read_header_append tour_marker m B hm A 0 n hA hdim
  rw [← hlines] at h
  exact ⟨h, by simp only [read_tour, h]⟩

/-- The file `threeTour` in `header_ends_at_marker_line`: its second line
starts with the marker and the nodes 2, 3, 1 of the third line are read. -/
theorem header_ends_at_marker_line_witness :
    read_header tour_marker (stream_lines threeTour) 0 =
        .ok (3, ["2 3 1\n".toList, "-1\n".toList]) ∧
      read_tour 2 (some threeTour) =
        read_tour_nodes 2 3 ["2 3 1\n".toList, "-1\n".toList] :=
  header_ends_at_marker_line 2 threeTour ["DIMENSION : 3\n".toList] "TOUR_SECTION\n".toList
    ["2 3 1\n".toList, "-1\n".toList] 3 (by rfl) (by decide) (by decide) (by rfl)

/-- C16 as stated fails on the file `indented`: its second line contains
`TOUR_SECTION` after a blank, the header loop runs past it to the end of the
file, and the nodes 1, 2 of the following line are not read. -/
theorem indented_marker_is_missed :
    stream_lines indented =
        ["DIMENSION : 2\n".toList, " ".toList ++ tour_marker ++ "\n".toList,
          "1 2\n".toList, "-1\n".toList] ∧
      read_header tour_marker (stream_lines indented) 0 = .ok (2, []) ∧
      read_tour 2 (some indented) =
        .ok { tour := [0, 0, 0, 0], node_count := 2, err := [Diag.notAllNodes 2 0] } :=
  ⟨by rfl, by rfl, by rfl⟩

/-! ## Text after the sentinel -/

theorem digits_append (y : List Char) (hy : ∀ c ∈ y.head?, ¬ is_digit c) :
    ∀ (ds : List Char) (acc : Nat), digits (ds ++ y) acc = digits ds acc := by
  intro ds
  induction ds with
  | nil =>
    intro acc
    cases y with
    | nil => rfl
    | cons c cs =>
      have := hy c (by simp)
      simp only [is_digit] at this
      simp [digits, this]
  | cons d ds ih =>
    intro acc
    simp only [List.cons_append, digits]
    split
    · exact ih _
    · rfl

theorem takeWhile_head {α : Type} (p : α → Bool) (q : α → Prop) (x : List α)
    (h : ∀ c ∈ x.head?, q c) : ∀ c ∈ (x.takeWhile p).head?, q c := by
  cases x with
  | nil => intro c hc; simp at hc
  | cons d ds =>
    intro c hc
    by_cases hd : p d = true
    · simp only [List.takeWhile_cons, hd, if_true, List.head?_cons, Option.mem_def,
        Option.some.injEq] at hc
      exact h c (by simp [hc])
    · simp [List.takeWhile_cons, hd] at hc

theorem whitespace_cases (c : Char) (h : whitespace c = true) :
    c = ' ' ∨ c = '\t' ∨ c = '\n' ∨ c = Char.ofNat 11 ∨ c = Char.ofNat 12 ∨ c = '\r' := by
  simpa [whitespace] using h

theorem whitespace_isspace (c : Char) (h : whitespace c = true) : isspace c = true := by
  rcases whitespace_cases c h with h | h | h | h | h | h <;> subst h <;> decide

theorem whitespace_not_digit (c : Char) (h : whitespace c = true) : ¬ is_digit c := by
  unfold is_digit
  rcases whitespace_cases c h with h | h | h | h | h | h <;> subst h <;> decide

theorem digit_value_spec (c : Char) (d : Nat) (h : digit_value c = some d) :
    is_digit c ∧ d = c.toNat - 48 := by
  have hmem : c ∈ "0123456789".toList := by
    by_contra hc
    have h10 : "0123456789".toList.indexOf c = 10 := List.indexOf_eq_length.2 hc
    rw [digit_value, h10] at h
    cases h
  have hc : c = '0' ∨ c = '1' ∨ c = '2' ∨ c = '3' ∨ c = '4' ∨ c = '5' ∨ c = '6' ∨ c = '7' ∨
      c = '8' ∨ c = '9' := by simpa using hmem
  unfold is_digit
  rcases hc with hc | hc | hc | hc | hc | hc | hc | hc | hc | hc <;> subst hc <;>
    · have hd := h
      simp only [digit_value] at hd
      injection hd with hd
      subst hd
      decide

theorem decimal_digits (y : List Char) (hy : ∀ c ∈ y.head?, ¬ is_digit c) :
    ∀ (ds : List Char) (acc k : Nat), decimal ds acc = some k → digits (ds ++ y) acc = k := by
  intro ds
  induction ds with
  | nil =>
    intro acc k h
    simp only [decimal] at h
    injection h with h
    rw [digits_append y hy [] acc, ← h]
    rfl
  | cons c cs ih =>
    intro acc k h
    simp only [decimal] at h
    cases hd : digit_value c with
    | none => rw [hd] at h; exact Option.noConfusion h
    | some d =>
      rw [hd] at h
      obtain ⟨hc, hval⟩ := digit_value_spec c d hd
      have hc2 : 48 ≤ c.toNat ∧ c.toNat ≤ 57 := hc
      simp only [List.cons_append, digits]
      rw [if_pos hc2, ← hval]
      exact ih _ _ h

theorem digit_not_isspace (c : Char) (h : is_digit c) : isspace c = false := by
  unfold is_digit at h
  unfold isspace
  have h1 : c ≠ ' ' := by
    rintro rfl
    revert h
    decide
  simp [h1]
  omega

/-- The integer a field writes is what `atoi` reads from the field, also when
text that does not begin with a digit follows it. -/
theorem atoi_integer (f y : List Char) (a : Int) (hy : ∀ c ∈ y.head?, ¬ is_digit c)
    (h : integer f = some a) : atoi (f ++ y) = a := by
  unfold integer at h
  split at h
  · exact Option.noConfusion h
  · rename_i d ds
    cases hk : decimal (d :: ds) 0 with
    | none => rw [hk] at h; exact Option.noConfusion h
    | some k =>
      rw [hk] at h
      have h : _ = a := Option.some.inj h
      have hsp : isspace '-' = false := by decide
      unfold atoi
      simp only [List.cons_append, List.dropWhile_cons, hsp, Bool.false_eq_true, if_false]
      have := decimal_digits y hy (d :: ds) 0 k hk
      simp only [List.cons_append] at this
      rw [this]
      exact h
  · rename_i d ds hneg
    cases hk : decimal (d :: ds) 0 with
    | none => rw [hk] at h; exact Option.noConfusion h
    | some k =>
      rw [hk] at h
      have h : _ = a := Option.some.inj h
      have hdig : is_digit d := by
        simp only [decimal] at hk
        cases hd : digit_value d with
        | none => rw [hd] at hk; exact Option.noConfusion hk
        | some e => exact (digit_value_spec d e hd).1
      have hsp : isspace d = false := digit_not_isspace d hdig
      have hm : d ≠ '-' := by
        rintro rfl
        revert hdig
        unfold is_digit
        decide
      have hp : d ≠ '+' := by
        rintro rfl
        revert hdig
        unfold is_digit
        decide
      have := decimal_digits y hy (d :: ds) 0 k hk
      unfold atoi
      simp only [List.cons_append, List.dropWhile_cons, hsp, Bool.false_eq_true, if_false]
      simp only [List.cons_append] at this
      split
      · rename_i cs heq
        injection heq with h1 _
        exact absurd h1 hm
      · rename_i cs heq
        injection heq with h1 _
        exact absurd h1 hp
      · rw [this]
        exact h

theorem strtok_blank (s : List Char) : strtok edge_delim (' ' :: s) = strtok edge_delim s := by
  simp [strtok, edge_delim]

theorem strtok_nonblank (c : Char) (s : List Char) (h : c ≠ ' ') :
    strtok edge_delim (c :: s) =
      some (c :: s.takeWhile (fun c => !edge_delim.contains c),
        (s.dropWhile (fun c => !edge_delim.contains c)).drop 1) := by
  have h1 : c ∉ edge_delim := by simp [edge_delim, h]
  simp [strtok, List.dropWhile_cons, List.takeWhile_cons, h1]

theorem takeWhile_of_imp {α : Type} (p q : α → Bool) (hpq : ∀ x, q x = true → p x = true) :
    ∀ s : List α, s.takeWhile p = s.takeWhile q ++ (s.dropWhile q).takeWhile p ∧
      s.dropWhile p = (s.dropWhile q).dropWhile p := by
  intro s
  induction s with
  | nil => simp
  | cons c cs ih =>
    by_cases hq : q c = true
    · have hp := hpq c hq
      simp only [List.takeWhile_cons, List.dropWhile_cons, hq, hp, if_true, List.cons_append]
      exact ⟨by rw [ih.1], ih.2⟩
    · simp [List.takeWhile_cons, List.dropWhile_cons, hq]

theorem dropWhile_head {α : Type} (p : α → Bool) :
    ∀ s : List α, ∀ c ∈ (s.dropWhile p).head?, p c = false := by
  intro s
  induction s with
  | nil => intro c hc; simp at hc
  | cons d ds ih =>
    intro c hc
    by_cases hp : p d = true
    · simp only [List.dropWhile_cons, hp, if_true] at hc
      exact ih c hc
    · simp only [List.dropWhile_cons, hp, if_false, List.head?_cons, Option.mem_def,
        Option.some.injEq, Bool.false_eq_true] at hc
      rw [← hc]
      simpa using hp

theorem atoi_whitespace (t : List Char) (h : ∀ c ∈ t, whitespace c = true) : atoi t = 0 := by
  have h0 : t.dropWhile isspace = [] :=
    List.dropWhile_eq_nil_iff.2 (fun c hc => whitespace_isspace c (h c hc))
  unfold atoi
  rw [h0]
  rfl

theorem strtok_mem (delim s tok more : List Char) (h : strtok delim s = some (tok, more)) :
    (∀ c ∈ tok, c ∈ s) ∧ (∀ c ∈ more, c ∈ s) := by
  unfold strtok at h
  split at h
  · exact Option.noConfusion h
  · rename_i c cs hs
    injection h with h
    injection h with h1 h2
    have hsub : (c :: cs).Sublist s := by rw [← hs]; exact List.dropWhile_sublist _
    constructor
    · intro x hx
      rw [← h1] at hx
      exact hsub.subset ((List.takeWhile_sublist _).subset hx)
    · intro x hx
      rw [← h2] at hx
      exact hsub.subset ((List.dropWhile_sublist _).subset ((List.drop_sublist _ _).subset hx))

theorem first_value_whitespace (s : List Char) (h : ∀ c ∈ s, whitespace c = true) :
    ((strtok edge_delim s).map (fun p => atoi p.1)).getD 0 = 0 := by
  cases hst : strtok edge_delim s with
  | none => rfl
  | some p =>
    obtain ⟨t, m⟩ := p
    have := (strtok_mem _ _ _ _ hst).1
    simp only [Option.map_some', Option.getD_some]
    exact atoi_whitespace t (fun c hc => h c (this c hc))

theorem second_value_whitespace (s : List Char) (h : ∀ c ∈ s, whitespace c = true) :
    ((strtok edge_delim s).bind
      (fun p => (strtok edge_delim p.2).map (fun q => atoi q.1))).getD 0 = 0 := by
  cases hst : strtok edge_delim s with
  | none => rfl
  | some p =>
    obtain ⟨t, m⟩ := p
    have := (strtok_mem _ _ _ _ hst).2
    simp only [Option.some_bind]
    exact first_value_whitespace m (fun c hc => h c (this c hc))

theorem fields_whitespace (s : List Char) (h : ∀ c ∈ s, whitespace c = true) :
    first_field s = [] ∧ after_first_field s = [] := by
  have h0 : s.dropWhile whitespace = [] := List.dropWhile_eq_nil_iff.2 h
  simp [first_field, after_first_field, h0]

theorem fields_blank (c : Char) (s : List Char) (h : whitespace c = true) :
    first_field (c :: s) = first_field s ∧ after_first_field (c :: s) = after_first_field s := by
  simp [first_field, after_first_field, List.dropWhile_cons, h]

theorem fields_start (c : Char) (s : List Char) (h : whitespace c = false) :
    first_field (c :: s) = c :: s.takeWhile (fun c => !whitespace c) ∧
      after_first_field (c :: s) = s.dropWhile (fun c => !whitespace c) := by
  simp [first_field, after_first_field, List.dropWhile_cons, List.takeWhile_cons, h]

theorem blanks_only_skip (c : Char) (s : List Char) (h : c = ' ' ∨ whitespace c = false) :
    blanks_only (c :: s) = blanks_only s := by
  rcases h with h | h
  · subst h
    simp [blanks_only]
  · simp [blanks_only, h]

theorem blanks_only_end (c : Char) (s : List Char) (hw : whitespace c = true) (hb : c ≠ ' ')
    (h : blanks_only (c :: s) = true) : ∀ x ∈ c :: s, whitespace x = true := by
  simp only [blanks_only, hw, Bool.true_and, bne_iff_ne, ne_eq, hb, not_false_eq_true,
    decide_True, if_true, List.all_eq_true] at h
  intro x hx
  rcases List.mem_cons.1 hx with rfl | hx
  · exact hw
  · exact h x hx

theorem blanks_only_dropWhile :
    ∀ s : List Char, blanks_only s = true →
      blanks_only (s.dropWhile (fun c => !whitespace c)) = true := by
  intro s
  induction s with
  | nil => intro h; exact h
  | cons c cs ih =>
    intro h
    by_cases hw : whitespace c = true
    · simpa [List.dropWhile_cons, hw] using h
    · have hw2 : whitespace c = false := by simpa using hw
      rw [blanks_only_skip c cs (Or.inr hw2)] at h
      simpa [List.dropWhile_cons, hw2] using ih h

theorem field_ok_integer (c : Char) (f : List Char) (h : field_ok (c :: f) = true) :
    ∃ a, integer (c :: f) = some a := by
  cases hi : integer (c :: f) with
  | none => simp [field_ok, hi] at h
  | some a => exact ⟨a, rfl⟩

/-- On a string in which only blanks separate, the first token of `strtok`
read by `atoi` is the first integer written, 0 when there is none. -/
theorem first_token_field :
    ∀ s : List Char, blanks_only s = true → field_ok (first_field s) = true →
      ((strtok edge_delim s).map (fun p => atoi p.1)).getD 0 =
        (integer (first_field s)).getD 0 := by
  intro s
  induction s with
  | nil => intro _ _; rfl
  | cons c cs ih =>
    intro hb hf
    by_cases hc : c = ' '
    · subst hc
      have hw : whitespace ' ' = true := by decide
      rw [strtok_blank, (fields_blank ' ' cs hw).1]
      rw [(fields_blank ' ' cs hw).1] at hf
      rw [blanks_only_skip ' ' cs (Or.inl rfl)] at hb
      exact ih hb hf
    · by_cases hw : whitespace c = true
      · have hall := blanks_only_end c cs hw hc hb
        rw [first_value_whitespace _ hall, (fields_whitespace _ hall).1]
        rfl
      · have hw2 : whitespace c = false := by simpa using hw
        rw [(fields_start c cs hw2).1] at hf ⊢
        obtain ⟨a, ha⟩ := field_ok_integer _ _ hf
        rw [strtok_nonblank c cs hc, ha]
        simp only [Option.map_some', Option.getD_some]
        have hsplit := (takeWhile_of_imp (fun c => !edge_delim.contains c)
          (fun c => !whitespace c) (fun x hx => by
            have : x ≠ ' ' := by
              rintro rfl
              revert hx
              decide
            simp [edge_delim, this]) cs).1
        rw [hsplit, ← List.cons_append]
        refine atoi_integer _ _ a ?_ ha
        refine takeWhile_head _ _ _ ?_
        intro x hx
        have := dropWhile_head (fun c => !whitespace c) cs x hx
        exact whitespace_not_digit x (by simpa using this)

/-- On a string in which only blanks separate, the second token of `strtok`
read by `atoi` is the second integer written, 0 when there is none. -/
theorem second_token_field :
    ∀ s : List Char, blanks_only s = true → field_ok (first_field s) = true →
      field_ok (first_field (after_first_field s)) = true →
      ((strtok edge_delim s).bind
        (fun p => (strtok edge_delim p.2).map (fun q => atoi q.1))).getD 0 =
        (integer (first_field (after_first_field s))).getD 0 := by
  intro s
  induction s with
  | nil => intro _ _ _; rfl
  | cons c cs ih =>
    intro hb hf hg
    by_cases hc : c = ' '
    · subst hc
      have hw : whitespace ' ' = true := by decide
      rw [strtok_blank, (fields_blank ' ' cs hw).2]
      rw [(fields_blank ' ' cs hw).1] at hf
      rw [(fields_blank ' ' cs hw).2] at hg
      rw [blanks_only_skip ' ' cs (Or.inl rfl)] at hb
      exact ih hb hf hg
    · by_cases hw : whitespace c = true
      · have hall := blanks_only_end c cs hw hc hb
        rw [second_value_whitespace _ hall, (fields_whitespace _ hall).2]
        rfl
      · have hw2 : whitespace c = false := by simpa using hw
        rw [(fields_start c cs hw2).2] at hg ⊢
        rw [strtok_nonblank c cs hc]
        simp only [Option.some_bind]
        have hsplit := (takeWhile_of_imp (fun c => !edge_delim.contains c)
          (fun c => !whitespace c) (fun x hx => by
            have : x ≠ ' ' := by
              rintro rfl
              revert hx
              decide
            simp [edge_delim, this]) cs).2
        rw [hsplit]
        rw [blanks_only_skip c cs (Or.inr hw2)] at hb
        have hbr := blanks_only_dropWhile cs hb
        have hhead := dropWhile_head (fun c => !whitespace c) cs
        generalize cs.dropWhile (fun c => !whitespace c) = r at hg hbr hhead ⊢
        cases r with
        | nil => rfl
        | cons d r1 =>
          have hd : whitespace d = true := by simpa using hhead d (by simp)
          by_cases hdb : d = ' '
          · subst hdb
            rw [(fields_blank ' ' r1 hd).1] at hg ⊢
            rw [blanks_only_skip ' ' r1 (Or.inl rfl)] at hbr
            have h1 : ((' ' :: r1).dropWhile (fun c => !edge_delim.contains c)).drop 1 = r1 := by
              simp [List.dropWhile_cons, edge_delim]
            rw [h1]
            exact first_token_field r1 hbr hg
          · have hall := blanks_only_end d r1 hd hdb hbr
            rw [(fields_whitespace _ hall).1]
            have hsub : ∀ x ∈ ((d :: r1).dropWhile (fun c => !edge_delim.contains c)).drop 1,
                whitespace x = true := fun x hx =>
              hall x ((List.dropWhile_sublist _).subset ((List.drop_sublist _ _).subset hx))
            rw [first_value_whitespace _ hsub]
            rfl

theorem cstr_plain (l : List Char) (h : l.all (fun c => c != Char.ofNat 0) = true) :
    cstr l = l := by
  unfold cstr
  rw [List.takeWhile_eq_self_iff]
  intro c hc
  have := List.all_eq_true.1 h c hc
  simpa using this

theorem edge_line_parts (l : List Char) (h : edge_line l = true) :
    cstr l = l ∧ blanks_only l = true ∧ field_ok (first_field l) = true ∧
      field_ok (first_field (after_first_field l)) = true := by
  unfold edge_line at h
  simp only [Bool.and_eq_true] at h
  exact ⟨cstr_plain l h.1.1.1, h.1.1.2, h.1.2, h.2⟩

/-- On an edge line of blank-separated integers, the `u` of the edge loop is
the first integer of the line, 0 when the line has none. -/
theorem edge_u_field (l : List Char) (h : edge_line l = true) :
    edge_u l = (first_integer l).getD 0 := by
  obtain ⟨hc, hb, hf, _⟩ := edge_line_parts l h
  have key := first_token_field l hb hf
  unfold edge_u first_integer
  rw [hc]
  cases hst : strtok edge_delim l with
  | none => rw [hst] at key; exact key
  | some p =>
    obtain ⟨t, m⟩ := p
    rw [hst] at key
    exact key

/-- On an edge line of blank-separated integers, the `v` of the edge loop is
the second integer of the line, 0 when the line has none. -/
theorem edge_v_field (l : List Char) (h : edge_line l = true) :
    edge_v l = (second_integer l).getD 0 := by
  obtain ⟨hc, hb, hf, hg⟩ := edge_line_parts l h
  have key := second_token_field l hb hf hg
  unfold edge_v second_integer
  rw [hc]
  cases hst : strtok edge_delim l with
  | none => rw [hst] at key; exact key
  | some p =>
    obtain ⟨t, m⟩ := p
    rw [hst] at key
    simp only [Option.some_bind] at key
    dsimp only
    cases hst2 : strtok edge_delim m with
    | none => rw [hst2] at key; exact key
    | some p2 =>
      obtain ⟨t2, m2⟩ := p2
      rw [hst2] at key
      exact key

theorem sentinel_line_iff (l : List Char) (h : edge_line l = true) :
    sentinel_line l = true ↔ edge_u l = -1 := by
  rw [edge_u_field l h]
  unfold sentinel_line
  cases hi : first_integer l with
  | none => simp
  | some a => simp

theorem mem_scanned_head (l : List Char) (ls : List (List Char)) : l ∈ scanned (l :: ls) := by
  unfold scanned
  split <;> simp

theorem listed_before_sentinel :
    ∀ lines : List (List Char), (∀ l ∈ scanned lines, edge_line l = true) →
      listed lines = before_sentinel lines := by
  intro lines
  induction lines with
  | nil => intro _; rfl
  | cons l ls ih =>
    intro h
    have hl := h l (mem_scanned_head l ls)
    by_cases hs : sentinel_line l = true
    · have hu := (sentinel_line_iff l hl).1 hs
      simp [listed, before_sentinel, List.takeWhile_cons, hs, hu]
    · have hu : ¬ edge_u l = -1 := fun hu => hs ((sentinel_line_iff l hl).2 hu)
      have hs2 : sentinel_line l = false := by simpa using hs
      have hrest : ∀ x ∈ scanned ls, edge_line x = true := by
        intro x hx
        apply h x
        simp only [scanned, hs2, Bool.false_eq_true, if_false]
        exact List.mem_cons_of_mem _ hx
      have := ih hrest
      unfold listed before_sentinel at this ⊢
      simp only [List.takeWhile_cons, hs2, hu, ne_eq, not_false_eq_true, decide_True,
        Bool.not_false, if_true]
      rw [this]

theorem before_sentinel_scanned :
    ∀ (lines : List (List Char)) (l : List Char), l ∈ before_sentinel lines → l ∈ scanned lines := by
  intro lines
  induction lines with
  | nil => intro l h; simp [before_sentinel] at h
  | cons x xs ih =>
    intro l h
    by_cases hs : sentinel_line x = true
    · simp [before_sentinel, List.takeWhile_cons, hs] at h
    · have hs2 : sentinel_line x = false := by simpa using hs
      simp only [before_sentinel, List.takeWhile_cons, hs2, Bool.not_false, if_true,
        List.mem_cons] at h
      simp only [scanned, hs2, Bool.false_eq_true, if_false, List.mem_cons]
      rcases h with h | h
      · exact Or.inl h
      · exact Or.inr (ih l h)

theorem lists_edge_joins (l : List Char) (h : edge_line l = true) (u v : Int) :
    lists_edge l u v ↔ joins l u v := by
  unfold lists_edge joins
  rw [edge_u_field l h, edge_v_field l h]
  cases first_integer l with
  | none => simp
  | some a =>
    cases second_integer l with
    | none => simp
    | some b => simp

/-- C9 (amended): when the header of a graph text is read with `DIMENSION` `n`
within the range of `int`, leaving the lines `edges` on the stream, every line
up to and including the first line whose first integer is -1 is an edge line
of integers separated by blanks, and every endpoint is at most `n`, then
`read_graph` returns a matrix with `node_count` `n` in which, for all `u`, `v`
in `0..n`, the entry `[u][v]` is 1 if and only if some line before the first
line whose first integer is -1 has first two integers `(u, v)` or `(v, u)`,
both positive; every other entry is 0.  The integers of a line are those
written in its white-space-separated fields. -/
theorem read_graph_records_listed_edges (text : List Char) (n : Int)
    (edges : List (List Char))
    (hhead : read_header edge_marker (stream_lines text) 0 = .ok (n, edges))
    (_hdim : dimension_ok n = true)
    (hfmt : ∀ l ∈ scanned edges, edge_line l = true)
    (hbound : ∀ l ∈ before_sentinel edges, ∀ a ∈ first_integer l, ∀ b ∈ second_integer l,
      0 < a → 0 < b → a ≤ n ∧ b ≤ n) :
    ∃ g e, read_graph (some text) = .ok { graph := g, node_count := n, edge_count := e } ∧
      ∀ u v : Int, 0 ≤ u → u ≤ n → 0 ≤ v → v ≤ n →
        (readGraph g u v = some 1 ↔ ∃ l ∈ before_sentinel edges, joins l u v) ∧
        (readGraph g u v = some 1 ∨ readGraph g u v = some 0) := by
  have hl := listed_before_sentinel edges hfmt
  have hb2 : ∀ l ∈ listed edges, 0 < edge_u l → 0 < edge_v l →
      edge_u l ≤ n ∧ edge_v l ≤ n := by
    intro l hl1 hu hv
    rw [hl] at hl1
    have hel := hfmt l (before_sentinel_scanned edges l hl1)
    rw [edge_u_field l hel] at hu ⊢
    rw [edge_v_field l hel] at hv ⊢
    cases ha : first_integer l with
    | none => rw [ha] at hu; exact absurd hu (by decide)
    | some a =>
      cases hb : second_integer l with
      | none => rw [hb] at hv; exact absurd hv (by decide)
      | some b =>
        rw [ha] at hu
        rw [hb] at hv
        exact hbound l hl1 a ha b hb hu hv
  obtain ⟨g, e, hrun, hent⟩ := read_graph_loop_records text n edges hhead hb2
  refine ⟨g, e, hrun, ?_⟩
  intro u v hu0 hun hv0 hvn
  obtain ⟨h1, h2⟩ := hent u v hu0 hun hv0 hvn
  refine ⟨?_, h2⟩
  rw [h1, hl]
  constructor
  · rintro ⟨l, hl1, hj⟩
    exact ⟨l, hl1, (lists_edge_joins l (hfmt l (before_sentinel_scanned edges l hl1)) u v).1 hj⟩
  · rintro ⟨l, hl1, hj⟩
    exact ⟨l, hl1, (lists_edge_joins l (hfmt l (before_sentinel_scanned edges l hl1)) u v).2 hj⟩

/-- The file `twoNodes` in `read_graph_records_listed_edges`: its header gives
`DIMENSION` 2 and leaves three lines, of which the first is before the
sentinel line and the last, "2 2", after it. -/
theorem read_graph_records_listed_edges_witness :
    before_sentinel ["1 2\n".toList, "-1\n".toList, "2 2\n".toList] = ["1 2\n".toList] ∧
    read_graph (some twoNodes) =
      .ok { graph := [[0, 0, 0], [0, 0, 1], [0, 1, 0]], node_count := 2, edge_count := 1 } ∧
    ∃ g e, read_graph (some twoNodes) = .ok { graph := g, node_count := 2, edge_count := e } ∧
      ∀ u v : Int, 0 ≤ u → u ≤ 2 → 0 ≤ v → v ≤ 2 →
        (readGraph g u v = some 1 ↔
          ∃ l ∈ before_sentinel ["1 2\n".toList, "-1\n".toList, "2 2\n".toList], joins l u v) ∧
        (readGraph g u v = some 1 ∨ readGraph g u v = some 0) :=
  ⟨by decide, by rfl,
    read_graph_records_listed_edges twoNodes 2 ["1 2\n".toList, "-1\n".toList, "2 2\n".toList]
      (by rfl) (by decide) (by decide) (by decide)⟩

/-- C9 as stated fails on the file `tabbed`: its edge line holds the integers
1 and 2 separated by a tab, both positive and at most `DIMENSION` 2, and is
before the sentinel line; `strtok` with the delimiter blank takes the whole
line as one token, `u` is 1, there is no second token, `v` stays 0 and nothing
is stored: the entries `[1][2]` and `[2][1]` are 0. -/
theorem tab_separated_edge_not_recorded :
    read_header edge_marker (stream_lines tabbed) 0 =
        .ok (2, ["1\t2\n".toList, "-1\n".toList]) ∧
      before_sentinel ["1\t2\n".toList, "-1\n".toList] = ["1\t2\n".toList] ∧
      first_integer "1\t2\n".toList = some 1 ∧ second_integer "1\t2\n".toList = some 2 ∧
      joins "1\t2\n".toList 1 2 ∧
      edge_u "1\t2\n".toList = 1 ∧ edge_v "1\t2\n".toList = 0 ∧
      read_graph (some tabbed) =
        .ok { graph := [[0, 0, 0], [0, 0, 0], [0, 0, 0]], node_count := 2, edge_count := 0 } ∧
      readGraph [[0, 0, 0], [0, 0, 0], [0, 0, 0]] 1 2 = some 0 :=
  ⟨by rfl, by decide, by decide, by decide,
    ⟨1, 2, by decide, by decide, by decide, by decide, Or.inl ⟨rfl, rfl⟩⟩,
    by decide, by decide, by rfl, by decide⟩

end HC
